import Mathlib

/-!
Verification development for the storage stack of a small teaching OS
(block cache, KTFS read-only filesystem reader, VirtIO block driver).

The definitions below are shallow embeddings of the C sources:
  sys/cache.c   (create_cache, cache_get_block, cache_release_block, cache_flush)
  sys/ktfs.c    (ktfs_open/ktfs_find name handling, ktfs_fetch, ktfs_cntl,
                 ktfs_map, ktfs_read_block_entry)
  sys/dev/vioblk.c (vioblk_storage_close, vioblk_io)

Machine integers are modeled as Nat (all the quantities involved are
unsigned in the source and the guards keep them in range; where C unsigned
subtraction can appear, the code paths guarantee the minuend dominates, and
this is noted at the definition).  Fallible calls return Except or carry an
Int status, negative on error, exactly as the C int/long returns do.
Pointer arguments that the C checks against NULL are modeled with Option
where a claim depends on the NULL behavior; otherwise the embedding works
on the pointed-to value directly.  A heap buffer is identified by an
abstract Nat (its address identity); the cache's per-slot buffers, which
are allocated once in create_cache and never freed, are identified by
their slot index.
-/

namespace ECE391

/-- Error codes from error.h (the header is not part of the sources at
hand; the spec's error taxonomy in section 7 gives the names).  Only the
names and their distinctness matter to the claims; concrete values are
arbitrary distinct positive integers, returned negated as in the C code. -/
def EINVAL : Int := 1

def ENOTSUP : Int := 2

def EBUSY : Int := 3

def ENOMEM : Int := 4

def ENOENT : Int := 5

def Eio : Int := 6

/-! ## Block cache (sys/cache.c) -/

/-- CACHE_BLKSZ from cache.h: the cache's fixed block size, 512 bytes
(spec section 3; the ktfs.c comments and the standalone test use 512). -/
def CACHE_BLKSZ : Nat := 512

/-- CACHE_BLOCK from cache.c line 30: number of slots. -/
def CACHE_BLOCK : Nat := 64

/-- One slot of the cache: struct cache_block.  `data` is the identity of
the slot's kcalloc'ed buffer (the C stores a pointer; buffers are
allocated once per slot in create_cache and never reallocated, so the
slot index serves as the buffer identity). -/
structure CacheBlock where
  pos : Nat
  last_used : Nat
  reference : Nat
  valid : Bool
  dirty : Bool
  data : Nat
  deriving Repr, DecidableEq

instance : Inhabited CacheBlock :=
  ⟨{ pos := 0, last_used := 0, reference := 0, valid := false, dirty := false, data := 0 }⟩

/-- struct cache: slot array plus the monotone use counter.  The lock is
not modeled (all cache operations run start-to-finish under it). -/
structure Cache where
  blocks : List CacheBlock
  use_counter : Nat
  deriving Repr, DecidableEq

/-- The backing storage device as the cache sees it: the result of
storage_store / storage_fetch at a given byte position (a long in C,
non-negative on success). -/
structure Storage where
  fetchRes : Nat → Int
  storeRes : Nat → Int

/-- One backing-device operation issued by the cache; traces of these are
returned by the cache operations so that fetch/store counts (the
stub device's fetch_calls / store_calls counters in the standalone test)
can be stated. -/
inductive DevOp where
  | fetch (pos : Nat)
  | store (pos : Nat)
  deriving Repr, DecidableEq

/-- Number of backing-device fetches in a trace. -/
def countFetches (ops : List DevOp) : Nat :=
  (ops.filter fun o => match o with | .fetch _ => true | .store _ => false).length

/-- The cache as created by create_cache: CACHE_BLOCK slots, all fields
zeroed by kcalloc, each slot's buffer identity being its index. -/
def initCache : Cache :=
  { blocks := (List.range CACHE_BLOCK).map fun i =>
      { pos := 0, last_used := 0, reference := 0, valid := false, dirty := false, data := i }
    use_counter := 0 }

/-- The hit scan of cache_get_block (cache.c lines 112-119): index of the
first valid slot whose position matches. -/
def findHitIdx (bs : List CacheBlock) (pos : Nat) : Option Nat :=
  bs.findIdx? fun b => b.valid && b.pos == pos

/-- The victim scan of cache_get_block (cache.c lines 122-136), with the
running `empty_block` candidate carried as (index, last_used): stop at the
first invalid slot; otherwise remember the unpinned slot with the
smallest last_used seen so far. -/
def victimGo : List CacheBlock → Nat → Option (Nat × Nat) → Option Nat
  | [], _, acc => acc.map fun p => p.1
  | b :: rest, i, acc =>
    if b.valid = false then some i
    else
      match acc with
      | none =>
        if b.reference = 0 then victimGo rest (i + 1) (some (i, b.last_used))
        else victimGo rest (i + 1) none
      | some (j, lu) =>
        if b.reference = 0 ∧ b.last_used < lu then victimGo rest (i + 1) (some (i, b.last_used))
        else victimGo rest (i + 1) (some (j, lu))

/-- Victim choice on a miss. -/
def findVictim (bs : List CacheBlock) : Option Nat :=
  victimGo bs 0 none

/-- The refill step of cache_get_block (cache.c lines 159-177): fetch into
the victim's buffer; on failure invalidate the slot and drop its pin
count; on success install the new position and hand out a pinned,
freshly-stamped buffer. -/
def fillSlot (sto : Storage) (c : Cache) (pos : Nat) (i : Nat) (ops : List DevOp) :
    (Except Int Nat) × Cache × List DevOp :=
  let r := sto.fetchRes pos
  let b := c.blocks.getD i default
  if r < 0 then
    (.error r,
     { c with blocks := c.blocks.set i { b with valid := false, reference := 0 } },
     ops ++ [DevOp.fetch pos])
  else
    let b' := { b with pos := pos, valid := true, dirty := false,
                       reference := b.reference + 1, last_used := c.use_counter + 1 }
    (.ok b'.data,
     { c with blocks := c.blocks.set i b', use_counter := c.use_counter + 1 },
     ops ++ [DevOp.fetch pos])

/-- cache_get_block (cache.c lines 101-181).  The NULL-pointer guards on
cache/pptr are outside the pure model (they return -EINVAL before any
state is read); the alignment guard is kept.  On success the returned Nat
is the slot's buffer identity (the C returns block->data through pptr). -/
def cache_get_block (sto : Storage) (c : Cache) (pos : Nat) :
    (Except Int Nat) × Cache × List DevOp :=
  if pos % CACHE_BLKSZ ≠ 0 then (.error (-EINVAL), c, [])
  else
    match findHitIdx c.blocks pos with
    | some i =>
      let b := c.blocks.getD i default
      let b' := { b with reference := b.reference + 1, last_used := c.use_counter + 1 }
      (.ok b.data, { c with blocks := c.blocks.set i b', use_counter := c.use_counter + 1 }, [])
    | none =>
      match findVictim c.blocks with
      | none => (.error (-EBUSY), c, [])
      | some i =>
        let b := c.blocks.getD i default
        if b.valid && b.dirty then
          let r := sto.storeRes b.pos
          if r < 0 then (.error r, c, [DevOp.store b.pos])
          else
            fillSlot sto { c with blocks := c.blocks.set i { b with dirty := false } }
              pos i [DevOp.store b.pos]
        else fillSlot sto c pos i []

/-- The body of cache_release_block once both pointers are known non-NULL
(cache.c lines 196-208): find the first valid slot whose buffer is pblk,
mark it dirty if requested, and drop its pin count (never below zero).
The last_used stamp is deliberately not bumped (the source comments the
bump out). -/
def cache_release_core (c : Cache) (pblk : Nat) (dirty : Bool) : Cache :=
  match c.blocks.findIdx? (fun b => b.valid && b.data == pblk) with
  | none => c
  | some i =>
    let b := c.blocks.getD i default
    let b1 := if dirty then { b with dirty := true } else b
    let b2 := if b1.reference > 0 then { b1 with reference := b1.reference - 1 } else b1
    { c with blocks := c.blocks.set i b2 }

/-- cache_release_block (cache.c lines 192-209) including its NULL guards:
a NULL cache or NULL buffer pointer returns immediately. -/
def cache_release_block (c : Option Cache) (pblk : Option Nat) (dirty : Bool) : Option Cache :=
  match c, pblk with
  | none, _ => none
  | some c, none => some c
  | some c, some p => some (cache_release_core c p dirty)

/-- The walk of cache_flush (cache.c lines 224-245), threading the
`status` accumulator: a valid dirty pinned slot records -EBUSY and is
skipped; a valid dirty unpinned slot is stored, clearing dirty on success
and stopping the walk with the store's status on failure.  Returns the
final status, the updated slots, and the positions stored (in order). -/
def flushGo (sto : Storage) : List CacheBlock → Int → Int × List CacheBlock × List Nat
  | [], status => (status, [], [])
  | b :: rest, status =>
    if b.valid && b.dirty then
      if b.reference ≠ 0 then
        let t := flushGo sto rest (-EBUSY)
        (t.1, b :: t.2.1, t.2.2)
      else
        let res := sto.storeRes b.pos
        if res < 0 then (res, b :: rest, [b.pos])
        else
          let t := flushGo sto rest status
          (t.1, { b with dirty := false } :: t.2.1, b.pos :: t.2.2)
    else
      let t := flushGo sto rest status
      (t.1, b :: t.2.1, t.2.2)

/-- cache_flush (cache.c lines 216-248); the NULL-cache guard is outside
the pure model. -/
def cache_flush (sto : Storage) (c : Cache) : Int × Cache × List Nat :=
  let t := flushGo sto c.blocks 0
  (t.1, { c with blocks := t.2.1 }, t.2.2)

/-! ## KTFS reader (sys/ktfs.c) -/

/-- KTFS_BLKSZ from ktfs.h: 512-byte blocks (spec sections 3 and 6; the
ktfs.c comments use 512). -/
def KTFS_BLKSZ : Nat := 512

/-- Entries per indirect block: KTFS_BLKSZ / sizeof(uint32_t) = 128. -/
def ENTRIES_PER_BLOCK : Nat := KTFS_BLKSZ / 4

/-- A KTFS inode as ktfs_map reads it: the direct block numbers, the
single-indirect block number and the double-indirect block numbers.
KTFS_NUM_DIRECT_DATA_BLOCKS and KTFS_NUM_DINDIRECT_BLOCKS live in ktfs.h,
which is not among the sources at hand, so the array lengths are left as
the lists' lengths and the theorems are parametric in them (the
standalone test exercises 4 direct entries and 1 double-indirect entry). -/
structure KtfsInode where
  size : Nat
  block : List Nat
  indirect : Nat
  dindirect : List Nat
  deriving Repr, DecidableEq

/-- The disk image as the cache layer serves it to ktfs.c.  `entry b i` is
the little-endian uint32 at word index i of block b (what
ktfs_read_block_entry extracts); `byte b i` is the byte at offset i of
block b (what ktfs_fetch memcpys).  Cache reads are modeled as always
succeeding; the claims under verification do not concern cache-error
propagation inside ktfs.c. -/
structure KtfsDisk where
  entry : Nat → Nat → Nat
  byte : Nat → Nat → Nat

/-- ktfs_read_block_entry (ktfs.c lines 428-447): bounds-check, then read
the uint32 at the given word index of the given block. -/
def ktfs_read_block_entry (disk : KtfsDisk) (blockno : Nat) (block_i : Nat) : Except Int Nat :=
  if blockno = 0 then .error (-ENOENT)
  else if ENTRIES_PER_BLOCK ≤ block_i then .error (-EINVAL)
  else .ok (disk.entry blockno block_i)

/-- The double-indirect loop of ktfs_map (ktfs.c lines 490-512):
`r` is `seconddirectblock`, reduced by one span of
ENTRIES_PER_BLOCK^2 logical blocks per double-indirect slot. -/
def ktfs_map_dind (disk : KtfsDisk) : Nat → List Nat → Except Int Nat
  | _, [] => .error (-EINVAL)
  | r, d :: rest =>
    if r < ENTRIES_PER_BLOCK * ENTRIES_PER_BLOCK then
      if d = 0 then .error (-ENOENT)
      else
        match ktfs_read_block_entry disk d (r / ENTRIES_PER_BLOCK) with
        | .error e => .error e
        | .ok ditmp =>
          if ditmp = 0 then .error (-ENOENT)
          else
            match ktfs_read_block_entry disk ditmp (r % ENTRIES_PER_BLOCK) with
            | .error e => .error e
            | .ok tmp => if tmp = 0 then .error (-ENOENT) else .ok tmp
    else ktfs_map_dind disk (r - ENTRIES_PER_BLOCK * ENTRIES_PER_BLOCK) rest

/-- ktfs_map (ktfs.c lines 461-513): translate a logical block index
within a file to a physical block number.  `D` is
KTFS_NUM_DIRECT_DATA_BLOCKS (the length of inode.block). -/
def ktfs_map (D : Nat) (disk : KtfsDisk) (ino : KtfsInode) (block_i : Nat) : Except Int Nat :=
  if block_i < D then
    let tmp := ino.block.getD block_i 0
    if tmp = 0 then .error (-ENOENT) else .ok tmp
  else if block_i - D < ENTRIES_PER_BLOCK then
    if ino.indirect = 0 then .error (-ENOENT)
    else
      match ktfs_read_block_entry disk ino.indirect (block_i - D) with
      | .error e => .error e
      | .ok tmp => if tmp = 0 then .error (-ENOENT) else .ok tmp
  else ktfs_map_dind disk (block_i - D - ENTRIES_PER_BLOCK) ino.dindirect

/-- struct ktfs_file as far as reads and cntl touch it: the cached size,
the byte cursor and the cached inode. -/
structure KtfsFile where
  pos : Nat
  size : Nat
  inode : KtfsInode
  deriving Repr, DecidableEq

/-- The read loop of ktfs_fetch (ktfs.c lines 225-250).  Arguments `pos`
and `readbyte` are the file cursor and bytes-copied-so-far; `acc` is the
caller's buffer contents so far.  A map failure returns the error if
nothing was copied yet, else the partial count (ktfs.c line 239); cache
reads are modeled as succeeding (line 242's error path is not taken). -/
def ktfs_fetch_go (D : Nat) (disk : KtfsDisk) (ino : KtfsInode) (len : Nat)
    (pos readbyte : Nat) (acc : List Nat) : Int × Nat × List Nat :=
  if h : readbyte < len then
    let chunk0 := KTFS_BLKSZ - pos % KTFS_BLKSZ
    let chunk := min chunk0 (len - readbyte)
    match ktfs_map D disk ino (pos / KTFS_BLKSZ) with
    | .error e => if readbyte = 0 then (e, pos, acc) else ((readbyte : Int), pos, acc)
    | .ok blockno =>
      ktfs_fetch_go D disk ino len (pos + chunk) (readbyte + chunk)
        (acc ++ (List.range chunk).map fun k => disk.byte blockno (pos % KTFS_BLKSZ + k))
  else ((readbyte : Int), pos, acc)
  termination_by len - readbyte
  decreasing_by
    have h0 : 0 < KTFS_BLKSZ - pos % KTFS_BLKSZ :=
      Nat.sub_pos_of_lt (Nat.mod_lt _ (by decide))
    have hc : 0 < min (KTFS_BLKSZ - pos % KTFS_BLKSZ) (len - readbyte) :=
      lt_min h0 (Nat.sub_pos_of_lt h)
    omega

/-- ktfs_fetch (ktfs.c lines 207-253).  The NULL guards on uio/buf are
outside the pure model.  Note the end-of-file check on line 219 is
`file->pos >= file->size - file->pos` (with unsigned subtraction; the
cursor never exceeds the size, so Nat subtraction coincides), not
`file->pos >= file->size`.  Returns the C long result, the updated file
and the bytes copied to the caller's buffer. -/
def ktfs_fetch (D : Nat) (disk : KtfsDisk) (f : KtfsFile) (len : Nat) :
    Int × KtfsFile × List Nat :=
  if f.size - f.pos ≤ f.pos then (0, f, [])
  else
    let len1 := min len (f.size - f.pos)
    let t := ktfs_fetch_go D disk f.inode len1 f.pos 0 []
    (t.1, { f with pos := t.2.1 }, t.2.2)

/-- The cntl commands ktfs_cntl dispatches on (uio.h FCNTL_*); every other
command falls to the default arm. -/
inductive Fcntl where
  | getend
  | getpos
  | setpos
  | other
  deriving Repr, DecidableEq

/-- ktfs_cntl (ktfs.c lines 307-340).  `arg` is the pointer argument
(none = NULL); the third component is the value written back through arg,
if any. -/
def ktfs_cntl (f : KtfsFile) (cmd : Fcntl) (arg : Option Nat) : Int × KtfsFile × Option Nat :=
  match cmd with
  | .getend =>
    match arg with
    | none => (-EINVAL, f, none)
    | some _ => (0, f, some f.size)
  | .getpos =>
    match arg with
    | none => (-EINVAL, f, none)
    | some _ => (0, f, some f.pos)
  | .setpos =>
    match arg with
    | none => (-EINVAL, f, none)
    | some v => if f.size < v then (-EINVAL, f, none) else (0, { f with pos := v }, none)
  | .other => (-ENOTSUP, f, none)

/-- Outcome of the name-validation prefix of a KTFS open: either an error
is returned, or the open proceeds to search the root directory for the
stripped file name. -/
inductive OpenNameOutcome where
  | err (e : Int)
  | lookup (fname : List Char)
  deriving Repr, DecidableEq

/-- The name handling of ktfs_open (ktfs.c line 165) followed by
ktfs_find (ktfs.c lines 595-604): reject NULL, empty, and the single
backslash listing name with -ENOTSUP; strip leading slashes; reject a
name that was all slashes with -EINVAL; reject any remaining name
containing a slash with -ENOTSUP; otherwise continue to the directory
scan with the stripped name.  (ktfs_open's NULL checks on fs/uioptr,
which return -EINVAL before the name is inspected, are outside this
model.) -/
def ktfs_open_name (name : Option (List Char)) : OpenNameOutcome :=
  match name with
  | none => .err (-ENOTSUP)
  | some cs =>
    if cs = [] then .err (-ENOTSUP)
    else if cs = ['\\'] then .err (-ENOTSUP)
    else
      let t := cs.dropWhile fun c => c = '/'
      if t = [] then .err (-EINVAL)
      else if cs.contains '/' then .err (-ENOTSUP)
      else .lookup t

/-! ## VirtIO block driver (sys/dev/vioblk.c) -/

/-- struct vioblk_req_ticket: completion record for one in-flight
request.  `status` is the 8-bit status byte. -/
structure VioTicket where
  done : Bool
  status : Nat
  deriving Repr, DecidableEq

instance : Inhabited VioTicket := ⟨{ done := false, status := 0xFF }⟩

/-- One entry of the descriptor table (struct virtq_desc).  `addr` is the
abstract identity of the buffer the descriptor points at. -/
structure VioDesc where
  addr : Nat
  len : Nat
  flags : Nat
  next : Nat
  deriving Repr, DecidableEq

/-- VIRTQ_DESC_F_NEXT flag bit. -/
def VIRTQ_DESC_F_NEXT : Nat := 1

/-- VIRTQ_DESC_F_WRITE flag bit. -/
def VIRTQ_DESC_F_WRITE : Nat := 2

/-- VIRTIO_BLK_T_IN request type (device-to-driver read). -/
def VIRTIO_BLK_T_IN : Nat := 0

/-- VIRTIO_BLK_T_OUT request type (driver-to-device write). -/
def VIRTIO_BLK_T_OUT : Nat := 1

/-- The driver state of struct vioblk_storage that vioblk_storage_close
and vioblk_io read or write: the open flag, the queue length, the
free-descriptor cursor, the descriptor table, the available ring (index
and entries) and the ticket array.  The MMIO registers, the interrupt
line and the lock are outside the pure model. -/
structure VioblkState where
  opened : Bool
  qlen : Nat
  free_desc : Nat
  desc : List VioDesc
  availIdx : Nat
  availRing : List Nat
  tickets : List VioTicket
  deriving Repr, DecidableEq

/-- The ticket sweep of vioblk_storage_close (vioblk.c lines 406-413),
walking the tickets from index `i`: every not-yet-done ticket gets
status=1 and done=true and its condition variable broadcast; the second
component collects the indices broadcast. -/
def closeTickets : List VioTicket → Nat → List VioTicket × List Nat
  | [], _ => ([], [])
  | tk :: rest, i =>
    let t := closeTickets rest (i + 1)
    if tk.done then (tk :: t.1, t.2)
    else ({ done := true, status := 1 } :: t.1, i :: t.2)

/-- vioblk_storage_close (vioblk.c lines 394-417): nothing happens on a
device that is not open; otherwise the open flag is cleared and every
pending ticket is forced to status 1 / done with its condition variable
broadcast (second component: the broadcast ticket indices).  Disabling
the interrupt source and resetting the virtqueue act on the device, not
on this state. -/
def vioblk_storage_close (st : VioblkState) : VioblkState × List Nat :=
  if st.opened then
    let t := closeTickets st.tickets 0
    ({ st with opened := false, tickets := t.1 }, t.2)
  else (st, [])

/-- How a submitter blocked in vioblk_io resolves its request once its
ticket is done (vioblk.c line 546): the byte count on status 0, -EIO
otherwise. -/
def vioblk_wait_result (len : Nat) (tk : VioTicket) : Int :=
  if tk.status = 0 then (len : Int) else -Eio

/-- Outcome of vioblk_io up to the point where the submitter blocks:
either an early error return, or the request was published with the given
head descriptor index and the thread waits on tickets[head]. -/
inductive VioOutcome where
  | err (e : Int)
  | submitted (head : Nat)
  deriving Repr, DecidableEq

/-- vioblk_io (vioblk.c lines 481-551) up to the condition wait.
`reqAlloc`/`statusAlloc` say whether the two kcalloc calls (request
header, status byte) succeed; `reqAddr`/`statusAddr` are the identities
of those heap buffers and `bufAddr` of the caller's buffer.  On an
allocation failure the call frees what it allocated and returns -ENOMEM
with the driver state untouched.  Otherwise three descriptors are chained
at (head, head+1, head+2) mod qlen, the ticket at `head` is reset, the
head is published in the available ring and the available index is
bumped (a uint16 in C, hence mod 65536). -/
def vioblk_io (reqAlloc statusAlloc : Bool) (reqAddr statusAddr bufAddr : Nat)
    (ty _sector len : Nat) (st : VioblkState) : VioOutcome × VioblkState :=
  if len % 512 ≠ 0 then (.err (-EINVAL), st)
  else if reqAlloc = false then (.err (-ENOMEM), st)
  else if statusAlloc = false then (.err (-ENOMEM), st)
  else
    let head := st.free_desc
    let d1 := (head + 1) % st.qlen
    let d2 := (head + 2) % st.qlen
    let desc0 := st.desc.set head { addr := reqAddr, len := 16, flags := VIRTQ_DESC_F_NEXT, next := d1 }
    let desc1 := desc0.set d1
      { addr := bufAddr, len := len,
        flags := (if ty = VIRTIO_BLK_T_IN then VIRTQ_DESC_F_WRITE else 0) + VIRTQ_DESC_F_NEXT,
        next := d2 }
    let desc2 := desc1.set d2 { addr := statusAddr, len := 1, flags := VIRTQ_DESC_F_WRITE, next := 0 }
    (.submitted head,
     { st with
        free_desc := (head + 3) % st.qlen,
        desc := desc2,
        tickets := st.tickets.set head { done := false, status := 0xFF },
        availRing := st.availRing.set (st.availIdx % st.qlen) head,
        availIdx := (st.availIdx + 1) % 65536 })

/-! ## Helper lemmas about victim selection (cache_get_block's miss path) -/

/-- The (index, last_used) candidates that the victim scan's LRU branch
ranges over: the unpinned slots, indexed from `i`. -/
def ref0Cands : List CacheBlock → Nat → List (Nat × Nat)
  | [], _ => []
  | b :: rest, i =>
    if b.reference = 0 then (i, b.last_used) :: ref0Cands rest (i + 1)
    else ref0Cands rest (i + 1)

/-- Minimum-by-last_used selection with first-wins ties, as the running
`empty_block` comparison performs it. -/
def minGo : Option (Nat × Nat) → List (Nat × Nat) → Option Nat
  | acc, [] => acc.map fun p => p.1
  | none, q :: rest => minGo (some q) rest
  | some a, q :: rest => if q.2 < a.2 then minGo (some q) rest else minGo (some a) rest

theorem victimGo_first_invalid (bs : List CacheBlock) :
    ∀ i acc, (∃ b ∈ bs, b.valid = false) →
      victimGo bs i acc = some (i + bs.findIdx fun b => !b.valid) := by
  induction bs with
  | nil => rintro i acc ⟨b, hb, -⟩; simp at hb
  | cons b rest ih =>
    intro i acc hex
    by_cases hv : b.valid
    · have hrest : ∃ x ∈ rest, x.valid = false := by
        obtain ⟨x, hx, hxv⟩ := hex
        rcases List.mem_cons.mp hx with rfl | hx'
        · rw [hv] at hxv; cases hxv
        · exact ⟨x, hx', hxv⟩
      have step : ∃ acc', victimGo (b :: rest) i acc = victimGo rest (i + 1) acc' := by
        cases acc with
        | none =>
          by_cases hr : b.reference = 0
          · exact ⟨some (i, b.last_used), by simp [victimGo, hv, hr]⟩
          · exact ⟨none, by simp [victimGo, hv, hr]⟩
        | some a =>
          obtain ⟨j, lu⟩ := a
          by_cases hc : b.reference = 0 ∧ b.last_used < lu
          · exact ⟨some (i, b.last_used), by simp [victimGo, hv, hc]⟩
          · exact ⟨some (j, lu), by simp [victimGo, hv, hc]⟩
      obtain ⟨acc', hstep⟩ := step
      rw [hstep, ih (i + 1) acc' hrest, List.findIdx_cons]
      have : (!b.valid) = false := by simp [hv]
      rw [this]
      simp [Nat.add_assoc, Nat.add_comm 1]
    · have hvf : b.valid = false := by simpa using hv
      rw [show victimGo (b :: rest) i acc = some i by simp [victimGo, hvf]]
      rw [List.findIdx_cons]
      have : (!b.valid) = true := by simp [hvf]
      rw [this]
      simp

theorem victimGo_all_valid (bs : List CacheBlock) :
    ∀ i acc, (∀ b ∈ bs, b.valid = true) →
      victimGo bs i acc = minGo acc (ref0Cands bs i) := by
  induction bs with
  | nil => intro i acc _; simp [victimGo, ref0Cands, minGo]
  | cons b rest ih =>
    intro i acc hval
    have hv : b.valid = true := hval b (by simp)
    have hval' : ∀ x ∈ rest, x.valid = true := fun x hx => hval x (List.mem_cons_of_mem _ hx)
    cases acc with
    | none =>
      by_cases hr : b.reference = 0
      · rw [show victimGo (b :: rest) i none = victimGo rest (i + 1) (some (i, b.last_used)) by
          simp [victimGo, hv, hr]]
        rw [ih (i + 1) _ hval']
        simp [ref0Cands, hr, minGo]
      · rw [show victimGo (b :: rest) i none = victimGo rest (i + 1) none by
          simp [victimGo, hv, hr]]
        rw [ih (i + 1) _ hval']
        simp [ref0Cands, hr]
    | some a =>
      obtain ⟨j, lu⟩ := a
      by_cases hr : b.reference = 0
      · by_cases hlt : b.last_used < lu
        · rw [show victimGo (b :: rest) i (some (j, lu)) = victimGo rest (i + 1) (some (i, b.last_used)) by
            simp [victimGo, hv, hr, hlt]]
          rw [ih (i + 1) _ hval']
          simp [ref0Cands, hr, minGo, hlt]
        · rw [show victimGo (b :: rest) i (some (j, lu)) = victimGo rest (i + 1) (some (j, lu)) by
            simp [victimGo, hv, hr, hlt]]
          rw [ih (i + 1) _ hval']
          simp [ref0Cands, hr, minGo, hlt]
      · rw [show victimGo (b :: rest) i (some (j, lu)) = victimGo rest (i + 1) (some (j, lu)) by
          simp [victimGo, hv, hr]]
        rw [ih (i + 1) _ hval']
        simp [ref0Cands, hr]

theorem minGo_some_spec (l : List (Nat × Nat)) :
    ∀ a : Nat × Nat, ∃ j lu, minGo (some a) l = some j ∧
      ((j, lu) = a ∨ (j, lu) ∈ l) ∧ lu ≤ a.2 ∧ ∀ q ∈ l, lu ≤ q.2 := by
  induction l with
  | nil => intro a; exact ⟨a.1, a.2, rfl, Or.inl rfl, le_refl _, by simp⟩
  | cons q rest ih =>
    intro a
    by_cases hlt : q.2 < a.2
    · obtain ⟨j, lu, hmin, hmem, hle, hall⟩ := ih q
      refine ⟨j, lu, by simpa [minGo, hlt] using hmin, ?_, le_of_lt (lt_of_le_of_lt hle hlt), ?_⟩
      · rcases hmem with h | h
        · exact Or.inr (by simp [h])
        · exact Or.inr (List.mem_cons_of_mem _ h)
      · intro p hp
        rcases List.mem_cons.mp hp with rfl | hp'
        · exact hle
        · exact hall p hp'
    · obtain ⟨j, lu, hmin, hmem, hle, hall⟩ := ih a
      refine ⟨j, lu, by simpa [minGo, hlt] using hmin, ?_, hle, ?_⟩
      · rcases hmem with h | h
        · exact Or.inl h
        · exact Or.inr (List.mem_cons_of_mem _ h)
      · intro p hp
        rcases List.mem_cons.mp hp with rfl | hp'
        · exact le_trans hle (Nat.le_of_not_lt hlt)
        · exact hall p hp'

theorem minGo_none_spec (l : List (Nat × Nat)) (hne : l ≠ []) :
    ∃ j lu, minGo none l = some j ∧ (j, lu) ∈ l ∧ ∀ q ∈ l, lu ≤ q.2 := by
  cases l with
  | nil => exact absurd rfl hne
  | cons q rest =>
    obtain ⟨j, lu, hmin, hmem, hle, hall⟩ := minGo_some_spec rest q
    refine ⟨j, lu, by simpa [minGo] using hmin, ?_, ?_⟩
    · rcases hmem with h | h
      · exact h ▸ List.mem_cons_self _ _
      · exact List.mem_cons_of_mem _ h
    · intro p hp
      rcases List.mem_cons.mp hp with rfl | hp'
      · exact hle
      · exact hall p hp'

theorem ref0Cands_mem (bs : List CacheBlock) :
    ∀ i j lu, (j, lu) ∈ ref0Cands bs i ↔
      ∃ k, ∃ h : k < bs.length, j = i + k ∧ (bs.get ⟨k, h⟩).reference = 0 ∧
        lu = (bs.get ⟨k, h⟩).last_used := by
  induction bs with
  | nil => intro i j lu; simp [ref0Cands]
  | cons b rest ih =>
    intro i j lu
    by_cases hr : b.reference = 0
    · rw [show ref0Cands (b :: rest) i = (i, b.last_used) :: ref0Cands rest (i + 1) by
        simp [ref0Cands, hr]]
      simp only [List.mem_cons, ih (i + 1)]
      constructor
      · rintro (h | ⟨k, hk, hj, href, hlu⟩)
        · refine ⟨0, Nat.succ_pos _, ?_, ?_, ?_⟩ <;>
            simp [Prod.ext_iff] at h <;> simp [h.1, h.2, hr]
        · exact ⟨k + 1, Nat.succ_lt_succ hk, by omega, by simpa using href, by simpa using hlu⟩
      · rintro ⟨k, hk, hj, href, hlu⟩
        cases k with
        | zero =>
          left
          simp at hj hlu
          simp [hj, hlu]
        | succ k =>
          right
          exact ⟨k, Nat.lt_of_succ_lt_succ hk, by omega, by simpa using href, by simpa using hlu⟩
    · rw [show ref0Cands (b :: rest) i = ref0Cands rest (i + 1) by simp [ref0Cands, hr]]
      rw [ih (i + 1)]
      constructor
      · rintro ⟨k, hk, hj, href, hlu⟩
        exact ⟨k + 1, Nat.succ_lt_succ hk, by omega, by simpa using href, by simpa using hlu⟩
      · rintro ⟨k, hk, hj, href, hlu⟩
        cases k with
        | zero =>
          exfalso
          simp at href
          exact hr href
        | succ k =>
          exact ⟨k, Nat.lt_of_succ_lt_succ hk, by omega, by simpa using href, by simpa using hlu⟩

theorem ref0Cands_ne_nil (bs : List CacheBlock) (i : Nat)
    (h : ∃ b ∈ bs, b.reference = 0) : ref0Cands bs i ≠ [] := by
  obtain ⟨b, hb, hr⟩ := h
  obtain ⟨n, rfl⟩ := List.mem_iff_get.mp hb
  intro hnil
  have hmem := (ref0Cands_mem bs i (i + n.1) ((bs.get n).last_used)).mpr
    ⟨n.1, n.2, rfl, by simpa using hr, by simp⟩
  rw [hnil] at hmem
  simp at hmem

theorem ref0Cands_eq_nil (bs : List CacheBlock) :
    ∀ i, (∀ b ∈ bs, b.reference ≠ 0) → ref0Cands bs i = [] := by
  induction bs with
  | nil => intro i _; rfl
  | cons b rest ih =>
    intro i h
    have hr : b.reference ≠ 0 := h b (by simp)
    rw [show ref0Cands (b :: rest) i = ref0Cands rest (i + 1) by simp [ref0Cands, hr]]
    exact ih (i + 1) fun x hx => h x (List.mem_cons_of_mem _ hx)

/-! ## Spec-side description of cache_flush (for claim C3) -/

/-- A valid dirty slot that is pinned: flush must skip it. -/
def isPinnedDirty (b : CacheBlock) : Bool :=
  b.valid && b.dirty && b.reference != 0

/-- A valid dirty slot that is unpinned: flush must write it back. -/
def isFlushable (b : CacheBlock) : Bool :=
  b.valid && b.dirty && b.reference == 0

/-- Index of the first slot whose write-back fails (the slot where the
flush walk stops); equals the slot count when every write-back succeeds. -/
def flushFailIdx (sto : Storage) (bs : List CacheBlock) : Nat :=
  bs.findIdx fun b => isFlushable b && decide (sto.storeRes b.pos < 0)

/-- The claimed return value of cache_flush: the first failing store's
status if the walk hits one, else -EBUSY if some pinned dirty slot was
skipped, else 0. -/
def flushSpecResult (sto : Storage) (bs : List CacheBlock) : Int :=
  if flushFailIdx sto bs < bs.length then
    sto.storeRes (bs.getD (flushFailIdx sto bs) default).pos
  else if bs.any isPinnedDirty then -EBUSY else 0

/-- The claimed sequence of write-backs: the flushable slots' positions
in walk order, cut after the first failing one. -/
def flushSpecStores (sto : Storage) (bs : List CacheBlock) : List Nat :=
  let ds := bs.filter isFlushable
  (ds.map fun b => b.pos).take ((ds.findIdx fun b => decide (sto.storeRes b.pos < 0)) + 1)

theorem flushGo_spec (sto : Storage) (bs : List CacheBlock) :
    ∀ s : Int,
      (flushGo sto bs s).1 =
        (if flushFailIdx sto bs < bs.length then
          sto.storeRes (bs.getD (flushFailIdx sto bs) default).pos
        else if bs.any isPinnedDirty then -EBUSY else s) ∧
      (flushGo sto bs s).2.1.length = bs.length ∧
      (∀ j, (flushGo sto bs s).2.1.getD j default =
        (if j < flushFailIdx sto bs ∧ isFlushable (bs.getD j default) = true then
          { bs.getD j default with dirty := false }
        else bs.getD j default)) ∧
      (flushGo sto bs s).2.2 = flushSpecStores sto bs := by
  induction bs with
  | nil =>
    intro s
    refine ⟨by simp [flushGo, flushFailIdx], rfl, fun j => by simp [flushGo, flushFailIdx], rfl⟩
  | cons b rest ih =>
    intro s
    by_cases hvd : b.valid && b.dirty
    · by_cases hrf : b.reference ≠ 0
      · -- pinned dirty slot: record -EBUSY, keep walking
        have hfl : isFlushable b = false := by
          simp only [isFlushable, Bool.and_eq_true] at hvd ⊢
          simp [hvd.1, hvd.2, hrf]
        have hpd : isPinnedDirty b = true := by
          simp only [Bool.and_eq_true] at hvd
          simp [isPinnedDirty, hvd.1, hvd.2, hrf]
        have hstep : flushGo sto (b :: rest) s =
            ((flushGo sto rest (-EBUSY)).1, b :: (flushGo sto rest (-EBUSY)).2.1,
             (flushGo sto rest (-EBUSY)).2.2) := by
          simp [flushGo, hvd, hrf]
        have hfail : flushFailIdx sto (b :: rest) = flushFailIdx sto rest + 1 := by
          simp [flushFailIdx, List.findIdx_cons, hfl]
        obtain ⟨ih1, ih2, ih3, ih4⟩ := ih (-EBUSY)
        refine ⟨?_, ?_, ?_, ?_⟩
        · rw [hstep, ih1, hfail]
          simp only [List.length_cons, List.any_cons, hpd, Bool.true_or]
          by_cases hlt : flushFailIdx sto rest < rest.length <;>
            simp [hlt, Nat.add_lt_add_iff_right, List.getD_cons_succ]
        · rw [hstep]
          simp [ih2]
        · intro j
          rw [hstep]
          cases j with
          | zero => simp [hfail, hfl]
          | succ j =>
            simp only [List.getD_cons_succ, ih3 j, hfail, Nat.add_lt_add_iff_right]
        · rw [hstep, ih4]
          simp [flushSpecStores, hfl]
      · -- unpinned dirty slot: write it back
        push_neg at hrf
        have hfl : isFlushable b = true := by
          simp only [Bool.and_eq_true] at hvd
          simp [isFlushable, hvd.1, hvd.2, hrf]
        have hpd : isPinnedDirty b = false := by
          simp [isPinnedDirty, hrf]
        by_cases hres : sto.storeRes b.pos < 0
        · -- the store fails: the walk stops here
          have hstep : flushGo sto (b :: rest) s = (sto.storeRes b.pos, b :: rest, [b.pos]) := by
            simp [flushGo, hvd, hrf, hres]
          have hfail : flushFailIdx sto (b :: rest) = 0 := by
            simp [flushFailIdx, List.findIdx_cons, hfl, hres]
          refine ⟨?_, ?_, ?_, ?_⟩
          · rw [hstep, hfail]
            simp
          · rw [hstep]
          · intro j
            rw [hstep, hfail]
            simp
          · rw [hstep]
            simp [flushSpecStores, hfl, List.findIdx_cons, hres]
        · -- the store succeeds: clear dirty and keep walking
          have hstep : flushGo sto (b :: rest) s =
              ((flushGo sto rest s).1, { b with dirty := false } :: (flushGo sto rest s).2.1,
               b.pos :: (flushGo sto rest s).2.2) := by
            simp [flushGo, hvd, hrf, hres]
          have hfail : flushFailIdx sto (b :: rest) = flushFailIdx sto rest + 1 := by
            simp [flushFailIdx, List.findIdx_cons, hfl, hres]
          obtain ⟨ih1, ih2, ih3, ih4⟩ := ih s
          refine ⟨?_, ?_, ?_, ?_⟩
          · rw [hstep, ih1, hfail]
            simp only [List.length_cons, List.any_cons, hpd, Bool.false_or]
            by_cases hlt : flushFailIdx sto rest < rest.length <;>
              simp [hlt, Nat.add_lt_add_iff_right, List.getD_cons_succ]
          · rw [hstep]
            simp [ih2]
          · intro j
            rw [hstep]
            cases j with
            | zero => simp [hfail, hfl]
            | succ j =>
              simp only [List.getD_cons_succ, ih3 j, hfail, Nat.add_lt_add_iff_right]
          · rw [hstep, ih4]
            simp [flushSpecStores, hfl, List.findIdx_cons, hres]
    · -- clean or invalid slot: skipped entirely
      have hfl : isFlushable b = false := by
        simp only [isFlushable]
        simp only [Bool.and_eq_true, not_and] at hvd
        cases hv : b.valid <;> cases hd : b.dirty <;> simp_all
      have hpd : isPinnedDirty b = false := by
        simp only [isPinnedDirty]
        simp only [Bool.and_eq_true, not_and] at hvd
        cases hv : b.valid <;> cases hd : b.dirty <;> simp_all
      have hstep : flushGo sto (b :: rest) s =
          ((flushGo sto rest s).1, b :: (flushGo sto rest s).2.1, (flushGo sto rest s).2.2) := by
        simp [flushGo, hvd]
      have hfail : flushFailIdx sto (b :: rest) = flushFailIdx sto rest + 1 := by
        simp [flushFailIdx, List.findIdx_cons, hfl]
      obtain ⟨ih1, ih2, ih3, ih4⟩ := ih s
      refine ⟨?_, ?_, ?_, ?_⟩
      · rw [hstep, ih1, hfail]
        simp only [List.length_cons, List.any_cons, hpd, Bool.false_or]
        by_cases hlt : flushFailIdx sto rest < rest.length <;>
          simp [hlt, Nat.add_lt_add_iff_right, List.getD_cons_succ]
      · rw [hstep]
        simp [ih2]
      · intro j
        rw [hstep]
        cases j with
        | zero => simp [hfail, hfl]
        | succ j =>
          simp only [List.getD_cons_succ, ih3 j, hfail, Nat.add_lt_add_iff_right]
      · rw [hstep, ih4]
        simp [flushSpecStores, hfl]

/-! ## Closed form of the double-indirect walk (for claim C5) -/

/-- What one double-indirect slot `d` resolves for an in-slot remainder
`r'`: fail on a zero slot pointer, read the second-level block number at
`r' / ENTRIES_PER_BLOCK`, fail if it is zero, read the data block number
at `r' % ENTRIES_PER_BLOCK` inside it, fail if it is zero. -/
def dindSlotResolve (disk : KtfsDisk) (d : Nat) (r' : Nat) : Except Int Nat :=
  if d = 0 then .error (-ENOENT)
  else if disk.entry d (r' / ENTRIES_PER_BLOCK) = 0 then .error (-ENOENT)
  else if disk.entry (disk.entry d (r' / ENTRIES_PER_BLOCK)) (r' % ENTRIES_PER_BLOCK) = 0 then
    .error (-ENOENT)
  else .ok (disk.entry (disk.entry d (r' / ENTRIES_PER_BLOCK)) (r' % ENTRIES_PER_BLOCK))

theorem ktfs_map_dind_spec (disk : KtfsDisk) (ds : List Nat) :
    ∀ r, ktfs_map_dind disk r ds =
      if r / (ENTRIES_PER_BLOCK * ENTRIES_PER_BLOCK) < ds.length then
        dindSlotResolve disk (ds.getD (r / (ENTRIES_PER_BLOCK * ENTRIES_PER_BLOCK)) 0)
          (r % (ENTRIES_PER_BLOCK * ENTRIES_PER_BLOCK))
      else .error (-EINVAL) := by
  induction ds with
  | nil => intro r; simp [ktfs_map_dind]
  | cons d rest ih =>
    intro r
    have hspan : 0 < ENTRIES_PER_BLOCK * ENTRIES_PER_BLOCK := by decide
    by_cases hr : r < ENTRIES_PER_BLOCK * ENTRIES_PER_BLOCK
    · have hj : r / (ENTRIES_PER_BLOCK * ENTRIES_PER_BLOCK) = 0 := Nat.div_eq_of_lt hr
      have hm : r % (ENTRIES_PER_BLOCK * ENTRIES_PER_BLOCK) = r := Nat.mod_eq_of_lt hr
      have hdivlt : r / ENTRIES_PER_BLOCK < ENTRIES_PER_BLOCK :=
        (Nat.div_lt_iff_lt_mul (by decide)).mpr hr
      have hmodlt : r % ENTRIES_PER_BLOCK < ENTRIES_PER_BLOCK := Nat.mod_lt _ (by decide)
      simp only [ktfs_map_dind]
      rw [if_pos hr]
      conv_rhs => rw [if_pos (show r / (ENTRIES_PER_BLOCK * ENTRIES_PER_BLOCK) < (d :: rest).length from by
        simp [hj])]
      simp only [hj, hm, List.getD_cons_zero]
      by_cases hd : d = 0
      · simp [dindSlotResolve, hd]
      · by_cases hdit : disk.entry d (r / ENTRIES_PER_BLOCK) = 0
        · simp [dindSlotResolve, ktfs_read_block_entry, hd, Nat.not_le.mpr hdivlt, hdit]
        · simp [dindSlotResolve, ktfs_read_block_entry, hd, Nat.not_le.mpr hdivlt,
            Nat.not_le.mpr hmodlt, hdit]
    · have hrr : r = (r - ENTRIES_PER_BLOCK * ENTRIES_PER_BLOCK) + ENTRIES_PER_BLOCK * ENTRIES_PER_BLOCK := by
        omega
      have hstep : ktfs_map_dind disk r (d :: rest) =
          ktfs_map_dind disk (r - ENTRIES_PER_BLOCK * ENTRIES_PER_BLOCK) rest := by
        simp [ktfs_map_dind, hr]
      have hdiv : r / (ENTRIES_PER_BLOCK * ENTRIES_PER_BLOCK) =
          (r - ENTRIES_PER_BLOCK * ENTRIES_PER_BLOCK) / (ENTRIES_PER_BLOCK * ENTRIES_PER_BLOCK) + 1 := by
        conv_lhs => rw [hrr]
        rw [Nat.add_div_right _ hspan]
      have hmod : r % (ENTRIES_PER_BLOCK * ENTRIES_PER_BLOCK) =
          (r - ENTRIES_PER_BLOCK * ENTRIES_PER_BLOCK) % (ENTRIES_PER_BLOCK * ENTRIES_PER_BLOCK) := by
        conv_lhs => rw [hrr]
        rw [Nat.add_mod_right]
      rw [hstep, ih (r - ENTRIES_PER_BLOCK * ENTRIES_PER_BLOCK), hdiv, hmod]
      by_cases hq : (r - ENTRIES_PER_BLOCK * ENTRIES_PER_BLOCK) /
          (ENTRIES_PER_BLOCK * ENTRIES_PER_BLOCK) < rest.length
      · rw [if_pos hq, if_pos (show _ < (d :: rest).length from Nat.succ_lt_succ hq),
          List.getD_cons_succ]
      · rw [if_neg hq, if_neg (show ¬ _ < (d :: rest).length from
          fun hc => hq (Nat.lt_of_succ_lt_succ hc))]

/-! ## Infrastructure for claim C4: cache operation sequences -/

/-- The cache operations a consumer can interleave between two gets:
further gets and releases. -/
inductive CacheOp where
  | get (pos : Nat)
  | release (pblk : Nat) (dirty : Bool)

/-- State effect of one cache operation (the get's return value and
device trace are dropped). -/
def stepOp (sto : Storage) (c : Cache) : CacheOp → Cache
  | .get p => (cache_get_block sto c p).2.1
  | .release p d => cache_release_core c p d

/-- Run a sequence of cache operations. -/
def runOps (sto : Storage) : Cache → List CacheOp → Cache
  | c, [] => c
  | c, op :: ops => runOps sto (stepOp sto c op) ops

/-- One get-and-release round: get the block at `p` and, if the get
succeeded, immediately release the returned buffer (not dirty).  Returns
the new state and the device operations issued. -/
def stepGR (sto : Storage) (c : Cache) (p : Nat) : Cache × List DevOp :=
  match cache_get_block sto c p with
  | (.ok v, c', ops) => (cache_release_core c' v false, ops)
  | (.error _, c', ops) => (c', ops)

/-- Run a sequence of get-and-release rounds, accumulating the device
trace. -/
def runGR (sto : Storage) : Cache → List Nat → Cache × List DevOp
  | c, [] => (c, [])
  | c, p :: ps =>
    let t := stepGR sto c p
    let u := runGR sto t.1 ps
    (u.1, t.2 ++ u.2)

/-- Structural well-formedness of a cache, true of every state reachable
from create_cache: each slot's buffer identity is its index (buffers are
never reallocated), and at most one valid slot holds any given position. -/
def GoodCache (c : Cache) : Prop :=
  (∀ i, ∀ h : i < c.blocks.length, (c.blocks.get ⟨i, h⟩).data = i) ∧
  (∀ i j, ∀ hi : i < c.blocks.length, ∀ hj : j < c.blocks.length,
    (c.blocks.get ⟨i, hi⟩).valid = true → (c.blocks.get ⟨j, hj⟩).valid = true →
    (c.blocks.get ⟨i, hi⟩).pos = (c.blocks.get ⟨j, hj⟩).pos → i = j)

theorem victimGo_lt (bs : List CacheBlock) :
    ∀ i acc j, victimGo bs i acc = some j →
      j < i + bs.length ∨ ∃ lu, acc = some (j, lu) := by
  induction bs with
  | nil =>
    intro i acc j h
    cases acc with
    | none => simp [victimGo] at h
    | some a =>
      right
      obtain ⟨k, lu⟩ := a
      simp [victimGo] at h
      exact ⟨lu, by rw [h]⟩
  | cons b rest ih =>
    intro i acc j h
    by_cases hv : b.valid
    · have hv' : (b.valid = false) = False := by simp [hv]
      cases acc with
      | none =>
        by_cases hr : b.reference = 0
        · rcases ih (i + 1) (some (i, b.last_used)) j (by simpa [victimGo, hv', hr] using h) with
            hlt | ⟨lu, hacc⟩
          · left; simp only [List.length_cons]; omega
          · left
            have : j = i := by
              have := congrArg (fun o => Option.map Prod.fst o) hacc
              simpa using this.symm
            simp only [List.length_cons]; omega
        · rcases ih (i + 1) none j (by simpa [victimGo, hv', hr] using h) with hlt | ⟨lu, hacc⟩
          · left; simp only [List.length_cons]; omega
          · cases hacc
      | some a =>
        obtain ⟨k, lu⟩ := a
        by_cases hc : b.reference = 0 ∧ b.last_used < lu
        · rcases ih (i + 1) (some (i, b.last_used)) j (by simpa [victimGo, hv', hc] using h) with
            hlt | ⟨lu', hacc⟩
          · left; simp only [List.length_cons]; omega
          · left
            have : j = i := by
              have := congrArg (fun o => Option.map Prod.fst o) hacc
              simpa using this.symm
            simp only [List.length_cons]; omega
        · rcases ih (i + 1) (some (k, lu)) j (by simpa [victimGo, hv', hc] using h) with
            hlt | ⟨lu', hacc⟩
          · left; simp only [List.length_cons]; omega
          · right
            have : j = k := by
              have := congrArg (fun o => Option.map Prod.fst o) hacc
              simpa using this.symm
            exact ⟨lu, by rw [this]⟩
    · have hv' : b.valid = false := by simpa using hv
      left
      have : j = i := by simpa [victimGo, hv'] using h.symm
      simp only [List.length_cons]
      omega

theorem findVictim_lt (bs : List CacheBlock) (j : Nat) (h : findVictim bs = some j) :
    j < bs.length := by
  rcases victimGo_lt bs 0 none j h with hlt | ⟨lu, hacc⟩
  · simpa using hlt
  · cases hacc

theorem countP_set_add (l : List CacheBlock) (p : CacheBlock → Bool) :
    ∀ i b, ∀ hi : i < l.length,
      (l.set i b).countP p + (if p (l.get ⟨i, hi⟩) then 1 else 0) =
        l.countP p + (if p b then 1 else 0) := by
  induction l with
  | nil => intro i b hi; simp at hi
  | cons x rest ih =>
    intro i b hi
    cases i with
    | zero =>
      simp only [List.set_cons_zero, List.countP_cons, List.get]
      omega
    | succ i =>
      have hi' : i < rest.length := Nat.lt_of_succ_lt_succ hi
      simp only [List.set_cons_succ, List.countP_cons, List.get]
      have := ih i b hi'
      omega

theorem getD_in_range {l : List CacheBlock} {i : Nat} (h : i < l.length) :
    l.getD i default = l.get ⟨i, h⟩ := by
  simp [List.getD_eq_getElem?_getD, List.getElem?_eq_getElem h, List.get_eq_getElem]

theorem findHitIdx_some (bs : List CacheBlock) (p i : Nat) (h : findHitIdx bs p = some i) :
    ∃ hi : i < bs.length, (bs.get ⟨i, hi⟩).valid = true ∧ (bs.get ⟨i, hi⟩).pos = p := by
  obtain ⟨hi, hpred, -⟩ := List.findIdx?_eq_some_iff_getElem.mp h
  refine ⟨hi, ?_, ?_⟩
  · simpa [List.get_eq_getElem] using (Bool.and_eq_true ..).mp hpred |>.1
  · have := (Bool.and_eq_true ..).mp hpred |>.2
    simpa [List.get_eq_getElem] using this

theorem findHitIdx_none (bs : List CacheBlock) (p : Nat) (h : findHitIdx bs p = none) :
    ∀ k, ∀ hk : k < bs.length,
      (bs.get ⟨k, hk⟩).valid = true → (bs.get ⟨k, hk⟩).pos ≠ p := by
  intro k hk hv hp
  have hall := List.findIdx?_eq_none_iff.mp h
  have hmem := List.get_mem bs k hk
  have := hall _ hmem
  rw [hv, hp] at this
  simp at this

/-- State shape of cache_get_block: the state is either untouched, or a
single slot is rewritten, preserving that slot's buffer identity, in one
of three ways: invalidated, its valid/pos left intact, or refilled at
the requested (missing) position. -/
theorem get_state_shape (sto : Storage) (c : Cache) (p : Nat) :
    (cache_get_block sto c p).2.1 = c ∨
    ∃ i, ∃ hi : i < c.blocks.length, ∃ b' : CacheBlock,
      (cache_get_block sto c p).2.1.blocks = c.blocks.set i b' ∧
      b'.data = (c.blocks.get ⟨i, hi⟩).data ∧
      (b'.valid = false ∨
       (b'.valid = (c.blocks.get ⟨i, hi⟩).valid ∧ b'.pos = (c.blocks.get ⟨i, hi⟩).pos) ∨
       (b'.pos = p ∧ findHitIdx c.blocks p = none)) := by
  by_cases halign : p % CACHE_BLKSZ ≠ 0
  · left
    simp [cache_get_block, halign]
  · cases hfind : findHitIdx c.blocks p with
    | some i =>
      obtain ⟨hi, hv, hp⟩ := findHitIdx_some c.blocks p i hfind
      have hb : c.blocks.getD i default = c.blocks.get ⟨i, hi⟩ := getD_in_range hi
      right
      refine ⟨i, hi,
        { c.blocks.get ⟨i, hi⟩ with
          reference := (c.blocks.get ⟨i, hi⟩).reference + 1,
          last_used := c.use_counter + 1 },
        ?_, rfl, Or.inr (Or.inl ⟨rfl, rfl⟩)⟩
      simp only [cache_get_block, if_neg halign, hfind, hb]
    | none =>
      cases hvic : findVictim c.blocks with
      | none =>
        left
        simp only [cache_get_block, if_neg halign, hfind, hvic]
      | some i =>
        have hi : i < c.blocks.length := findVictim_lt c.blocks i hvic
        have hb : c.blocks.getD i default = c.blocks.get ⟨i, hi⟩ := getD_in_range hi
        by_cases hwb : ((c.blocks.get ⟨i, hi⟩).valid && (c.blocks.get ⟨i, hi⟩).dirty) = true
        · by_cases hst : sto.storeRes (c.blocks.get ⟨i, hi⟩).pos < 0
          · left
            simp only [cache_get_block, if_neg halign, hfind, hvic, hb, if_pos hwb, if_pos hst]
          · -- write-back succeeded; the fetch then happens on the dirty-cleared slot
            have hlen1 : i < (c.blocks.set i { c.blocks.get ⟨i, hi⟩ with dirty := false }).length := by
              simpa using hi
            have hb1 : (c.blocks.set i { c.blocks.get ⟨i, hi⟩ with dirty := false }).getD i default
                = { c.blocks.get ⟨i, hi⟩ with dirty := false } := by
              rw [getD_in_range hlen1, List.get_set_eq]
            by_cases hft : sto.fetchRes p < 0
            · right
              refine ⟨i, hi,
                { c.blocks.get ⟨i, hi⟩ with dirty := false, valid := false, reference := 0 },
                ?_, rfl, Or.inl rfl⟩
              simp only [cache_get_block, if_neg halign, hfind, hvic, hb, if_pos hwb, if_neg hst,
                fillSlot, if_pos hft, hb1]
              simp [List.set_set]
            · right
              refine ⟨i, hi,
                { pos := p, last_used := c.use_counter + 1,
                  reference := (c.blocks.get ⟨i, hi⟩).reference + 1, valid := true,
                  dirty := false, data := (c.blocks.get ⟨i, hi⟩).data },
                ?_, rfl, Or.inr (Or.inr ⟨rfl, rfl⟩)⟩
              simp only [cache_get_block, if_neg halign, hfind, hvic, hb, if_pos hwb, if_neg hst,
                fillSlot, if_neg hft, hb1]
              simp [List.set_set]
        · by_cases hft : sto.fetchRes p < 0
          · right
            refine ⟨i, hi,
              { c.blocks.get ⟨i, hi⟩ with valid := false, reference := 0 },
              ?_, rfl, Or.inl rfl⟩
            simp only [cache_get_block, if_neg halign, hfind, hvic, hb, if_neg hwb,
              fillSlot, if_pos hft]
          · right
            refine ⟨i, hi,
              { pos := p, last_used := c.use_counter + 1,
                reference := (c.blocks.get ⟨i, hi⟩).reference + 1, valid := true,
                dirty := false, data := (c.blocks.get ⟨i, hi⟩).data },
              ?_, rfl, Or.inr (Or.inr ⟨rfl, rfl⟩)⟩
            simp only [cache_get_block, if_neg halign, hfind, hvic, hb, if_neg hwb,
              fillSlot, if_neg hft]

theorem goodCache_set (c : Cache) (hg : GoodCache c) (p : Nat) (i : Nat)
    (hi : i < c.blocks.length) (b' : CacheBlock)
    (hdata : b'.data = (c.blocks.get ⟨i, hi⟩).data)
    (hcase : b'.valid = false ∨
      (b'.valid = (c.blocks.get ⟨i, hi⟩).valid ∧ b'.pos = (c.blocks.get ⟨i, hi⟩).pos) ∨
      (b'.pos = p ∧ findHitIdx c.blocks p = none))
    (c' : Cache) (hc' : c'.blocks = c.blocks.set i b') : GoodCache c' := by
  obtain ⟨hgd, hgu⟩ := hg
  have hlen : c'.blocks.length = c.blocks.length := by rw [hc']; simp
  have hget : ∀ k, ∀ hk : k < c'.blocks.length,
      c'.blocks.get ⟨k, hk⟩ = if i = k then b' else c.blocks.get ⟨k, by omega⟩ := by
    intro k hk
    have hk' : k < c.blocks.length := by omega
    simp only [hc', List.get_eq_getElem]
    rw [List.getElem_set]
  constructor
  · intro k hk
    rw [hget k hk]
    by_cases hik : i = k
    · rw [if_pos hik, hdata, hgd i hi]
      omega
    · rw [if_neg hik]
      exact hgd k (by omega)
  · intro k l hk hl hvk hvl hpkl
    rw [hget k hk] at hvk hpkl
    rw [hget l hl] at hvl hpkl
    by_cases hik : i = k <;> by_cases hil : i = l
    · omega
    · rw [if_pos hik] at hvk hpkl
      rw [if_neg hil] at hvl hpkl
      rcases hcase with hinv | ⟨hveq, hpeq⟩ | ⟨hpp, hmiss⟩
      · rw [hinv] at hvk; cases hvk
      · exact absurd (hgu i l hi (by omega) (hveq ▸ hvk) hvl (hpeq ▸ hpkl)) hil
      · exact absurd (show (c.blocks.get ⟨l, by omega⟩).pos = p by rw [← hpkl, hpp])
          (findHitIdx_none c.blocks p hmiss l (by omega) hvl)
    · rw [if_neg hik] at hvk hpkl
      rw [if_pos hil] at hvl hpkl
      rcases hcase with hinv | ⟨hveq, hpeq⟩ | ⟨hpp, hmiss⟩
      · rw [hinv] at hvl; cases hvl
      · exact absurd (hgu k i (by omega) hi hvk (hveq ▸ hvl) (hpeq ▸ hpkl)).symm hik
      · exact absurd (show (c.blocks.get ⟨k, by omega⟩).pos = p by rw [hpkl, hpp])
          (findHitIdx_none c.blocks p hmiss k (by omega) hvk)
    · rw [if_neg hik] at hvk hpkl
      rw [if_neg hil] at hvl hpkl
      exact hgu k l (by omega) (by omega) hvk hvl hpkl

theorem goodCache_get (sto : Storage) (c : Cache) (p : Nat) (hg : GoodCache c) :
    GoodCache (cache_get_block sto c p).2.1 := by
  rcases get_state_shape sto c p with hsame | ⟨i, hi, b', hblocks, hdata, hcase⟩
  · rw [hsame]; exact hg
  · exact goodCache_set c hg p i hi b' hdata hcase _ hblocks

theorem goodCache_release (c : Cache) (p : Nat) (d : Bool) (hg : GoodCache c) :
    GoodCache (cache_release_core c p d) := by
  unfold cache_release_core
  cases hfind : c.blocks.findIdx? (fun b => b.valid && b.data == p) with
  | none => exact hg
  | some i =>
    obtain ⟨hi, -, -⟩ := List.findIdx?_eq_some_iff_getElem.mp hfind
    have hb : c.blocks.getD i default = c.blocks.get ⟨i, hi⟩ := getD_in_range hi
    refine goodCache_set c hg 0 i hi _ ?_ (Or.inr (Or.inl ⟨?_, ?_⟩)) _ rfl <;>
      rw [hb] <;>
      by_cases hd : d <;> by_cases hr : (if hd' : d = true then True else True) <;>
      simp [hd] <;>
      split <;> simp

theorem goodCache_runOps (sto : Storage) (ops : List CacheOp) :
    ∀ c : Cache, GoodCache c → GoodCache (runOps sto c ops) := by
  induction ops with
  | nil => intro c hg; exact hg
  | cons op rest ih =>
    intro c hg
    refine ih _ ?_
    cases op with
    | get p => exact goodCache_get sto c p hg
    | release p d => exact goodCache_release c p d hg

/-- Return-value shape of a successful cache_get_block: the returned
pointer is the buffer identity of one slot, which afterwards is valid at
the requested position with its buffer identity intact. -/
theorem get_ok_shape (sto : Storage) (c : Cache) (p v : Nat) (c' : Cache) (tr : List DevOp)
    (h : cache_get_block sto c p = (.ok v, c', tr)) :
    p % CACHE_BLKSZ = 0 ∧
    ∃ i, ∃ hi : i < c.blocks.length, ∃ b' : CacheBlock,
      c'.blocks = c.blocks.set i b' ∧ v = (c.blocks.get ⟨i, hi⟩).data ∧
      b'.valid = true ∧ b'.pos = p ∧ b'.data = (c.blocks.get ⟨i, hi⟩).data := by
  have hfst : (cache_get_block sto c p).1 = .ok v := by rw [h]
  have hsnd : (cache_get_block sto c p).2.1 = c' := by rw [h]
  by_cases halign : p % CACHE_BLKSZ ≠ 0
  · rw [show (cache_get_block sto c p).1 = .error (-EINVAL) from by
      simp [cache_get_block, halign]] at hfst
    cases hfst
  · refine ⟨not_ne_iff.mp halign, ?_⟩
    cases hfind : findHitIdx c.blocks p with
    | some i =>
      obtain ⟨hi, hv, hp⟩ := findHitIdx_some c.blocks p i hfind
      have hb : c.blocks.getD i default = c.blocks.get ⟨i, hi⟩ := getD_in_range hi
      have hval : (cache_get_block sto c p).1 = .ok ((c.blocks.get ⟨i, hi⟩).data) := by
        simp only [cache_get_block, if_neg halign, hfind, hb]
      have hblocks : (cache_get_block sto c p).2.1.blocks =
          c.blocks.set i
            ({ c.blocks.get ⟨i, hi⟩ with
               reference := (c.blocks.get ⟨i, hi⟩).reference + 1,
               last_used := c.use_counter + 1 }) := by
        simp only [cache_get_block, if_neg halign, hfind, hb]
      rw [hfst] at hval
      rw [hsnd] at hblocks
      exact ⟨i, hi, _, hblocks, (Except.ok.inj hval), hv, hp, rfl⟩
    | none =>
      cases hvic : findVictim c.blocks with
      | none =>
        rw [show (cache_get_block sto c p).1 = .error (-EBUSY) from by
          simp only [cache_get_block, if_neg halign, hfind, hvic]] at hfst
        cases hfst
      | some i =>
        have hi : i < c.blocks.length := findVictim_lt c.blocks i hvic
        have hb : c.blocks.getD i default = c.blocks.get ⟨i, hi⟩ := getD_in_range hi
        by_cases hwb : ((c.blocks.get ⟨i, hi⟩).valid && (c.blocks.get ⟨i, hi⟩).dirty) = true
        · by_cases hst : sto.storeRes (c.blocks.get ⟨i, hi⟩).pos < 0
          · rw [show (cache_get_block sto c p).1 =
                .error (sto.storeRes (c.blocks.get ⟨i, hi⟩).pos) from by
              simp only [cache_get_block, if_neg halign, hfind, hvic, hb, if_pos hwb, if_pos hst]] at hfst
            cases hfst
          · have hlen1 : i < (c.blocks.set i { c.blocks.get ⟨i, hi⟩ with dirty := false }).length := by
              simpa using hi
            have hb1 : (c.blocks.set i { c.blocks.get ⟨i, hi⟩ with dirty := false }).getD i default
                = { c.blocks.get ⟨i, hi⟩ with dirty := false } := by
              rw [getD_in_range hlen1, List.get_set_eq]
            by_cases hft : sto.fetchRes p < 0
            · rw [show (cache_get_block sto c p).1 = .error (sto.fetchRes p) from by
                simp only [cache_get_block, if_neg halign, hfind, hvic, hb, if_pos hwb,
                  if_neg hst, fillSlot, if_pos hft]] at hfst
              cases hfst
            · have hval : (cache_get_block sto c p).1 = .ok ((c.blocks.get ⟨i, hi⟩).data) := by
                simp only [cache_get_block, if_neg halign, hfind, hvic, hb, if_pos hwb,
                  if_neg hst, fillSlot, if_neg hft, hb1]
              have hblocks : (cache_get_block sto c p).2.1.blocks =
                  c.blocks.set i
                    ({ pos := p, last_used := c.use_counter + 1,
                       reference := (c.blocks.get ⟨i, hi⟩).reference + 1, valid := true,
                       dirty := false, data := (c.blocks.get ⟨i, hi⟩).data }) := by
                simp only [cache_get_block, if_neg halign, hfind, hvic, hb, if_pos hwb,
                  if_neg hst, fillSlot, if_neg hft, hb1]
                simp [List.set_set]
              rw [hfst] at hval
              rw [hsnd] at hblocks
              exact ⟨i, hi, _, hblocks, (Except.ok.inj hval), rfl, rfl, rfl⟩
        · by_cases hft : sto.fetchRes p < 0
          · rw [show (cache_get_block sto c p).1 = .error (sto.fetchRes p) from by
              simp only [cache_get_block, if_neg halign, hfind, hvic, hb, if_neg hwb,
                fillSlot, if_pos hft]] at hfst
            cases hfst
          · have hval : (cache_get_block sto c p).1 = .ok ((c.blocks.get ⟨i, hi⟩).data) := by
              simp only [cache_get_block, if_neg halign, hfind, hvic, hb, if_neg hwb,
                fillSlot, if_neg hft]
            have hblocks : (cache_get_block sto c p).2.1.blocks =
                c.blocks.set i
                  ({ pos := p, last_used := c.use_counter + 1,
                     reference := (c.blocks.get ⟨i, hi⟩).reference + 1, valid := true,
                     dirty := false, data := (c.blocks.get ⟨i, hi⟩).data }) := by
              simp only [cache_get_block, if_neg halign, hfind, hvic, hb, if_neg hwb,
                fillSlot, if_neg hft]
            rw [hfst] at hval
            rw [hsnd] at hblocks
            exact ⟨i, hi, _, hblocks, (Except.ok.inj hval), rfl, rfl, rfl⟩

/-- After a successful get and any sequence of further gets and releases
that leaves the returned slot valid at the same position, a repeated get
of that position returns the very same buffer identity and issues no
backing-device operation at all. -/
theorem cache_hit_identity (sto : Storage) (c : Cache) (p v : Nat) (c₁ : Cache)
    (tr : List DevOp) (hg : GoodCache c)
    (hget : cache_get_block sto c p = (.ok v, c₁, tr)) (ops : List CacheOp)
    (hv2 : ∃ h : v < (runOps sto c₁ ops).blocks.length,
      ((runOps sto c₁ ops).blocks.get ⟨v, h⟩).valid = true ∧
      ((runOps sto c₁ ops).blocks.get ⟨v, h⟩).pos = p) :
    ∃ c₃, cache_get_block sto (runOps sto c₁ ops) p = (.ok v, c₃, []) := by
  obtain ⟨halign, -⟩ := get_ok_shape sto c p v c₁ tr hget
  have hg₁ : GoodCache c₁ := by
    have := goodCache_get sto c p hg
    rw [hget] at this
    exact this
  have hg₂ : GoodCache (runOps sto c₁ ops) := goodCache_runOps sto ops c₁ hg₁
  obtain ⟨hvlen, hvv, hvp⟩ := hv2
  have halign' : ¬ (p % CACHE_BLKSZ ≠ 0) := by omega
  cases hfind : findHitIdx (runOps sto c₁ ops).blocks p with
  | none =>
    exact absurd hvp (findHitIdx_none _ p hfind v hvlen hvv)
  | some j =>
    obtain ⟨hj, hjv, hjp⟩ := findHitIdx_some _ p j hfind
    have hjv' : j = v := hg₂.2 j v hj hvlen hjv hvv (by rw [hjp, hvp])
    have hb : (runOps sto c₁ ops).blocks.getD j default
        = (runOps sto c₁ ops).blocks.get ⟨j, hj⟩ := getD_in_range hj
    refine ⟨(cache_get_block sto (runOps sto c₁ ops) p).2.1, ?_⟩
    have h1 : (cache_get_block sto (runOps sto c₁ ops) p).1 = .ok v := by
      rw [show (cache_get_block sto (runOps sto c₁ ops) p).1 =
          .ok (((runOps sto c₁ ops).blocks.get ⟨j, hj⟩).data) from by
        simp only [cache_get_block, if_neg halign', hfind, hb]]
      rw [hg₂.1 j hj, hjv']
    have h3 : (cache_get_block sto (runOps sto c₁ ops) p).2.2 = [] := by
      simp only [cache_get_block, if_neg halign', hfind, hb]
    exact Prod.ext h1 (Prod.ext rfl h3)

/-- Invariant of the get-and-release workload, relating the cache state
to the set `P` of block positions touched so far: 64 slots each owning
buffer i with pin 0 and clean; valid slots hold exactly the aligned
positions of `P`, one slot per position; the number of valid slots is
the number of positions touched. -/
def InvGR (c : Cache) (P : Finset Nat) : Prop :=
  c.blocks.length = CACHE_BLOCK ∧
  (∀ i, ∀ h : i < c.blocks.length,
    (c.blocks.get ⟨i, h⟩).data = i ∧ (c.blocks.get ⟨i, h⟩).reference = 0 ∧
    (c.blocks.get ⟨i, h⟩).dirty = false) ∧
  (∀ i, ∀ h : i < c.blocks.length, (c.blocks.get ⟨i, h⟩).valid = true →
    (c.blocks.get ⟨i, h⟩).pos ∈ P ∧ (c.blocks.get ⟨i, h⟩).pos % CACHE_BLKSZ = 0) ∧
  (∀ q ∈ P, ∃ i, ∃ h : i < c.blocks.length,
    (c.blocks.get ⟨i, h⟩).valid = true ∧ (c.blocks.get ⟨i, h⟩).pos = q) ∧
  (∀ i j, ∀ hi : i < c.blocks.length, ∀ hj : j < c.blocks.length,
    (c.blocks.get ⟨i, hi⟩).valid = true → (c.blocks.get ⟨j, hj⟩).valid = true →
    (c.blocks.get ⟨i, hi⟩).pos = (c.blocks.get ⟨j, hj⟩).pos → i = j) ∧
  c.blocks.countP (fun b => b.valid) = P.card

/-- Rewriting one slot without touching its data, pin, dirty, valid or
position (only the last-used stamp may change) preserves the workload
invariant. -/
theorem invGR_set_same (c : Cache) (P : Finset Nat) (hinv : InvGR c P) (j : Nat)
    (hj : j < c.blocks.length) (b2 : CacheBlock)
    (hd : b2.data = (c.blocks.get ⟨j, hj⟩).data) (hr : b2.reference = 0)
    (hdt : b2.dirty = false) (hvv : b2.valid = (c.blocks.get ⟨j, hj⟩).valid)
    (hpp : b2.pos = (c.blocks.get ⟨j, hj⟩).pos)
    (c' : Cache) (hc' : c'.blocks = c.blocks.set j b2) : InvGR c' P := by
  obtain ⟨hlen, hslot, hvalid, hwit, huniq, hcount⟩ := hinv
  have hlen' : c'.blocks.length = c.blocks.length := by rw [hc']; simp
  have hget : ∀ k, ∀ hk : k < c'.blocks.length,
      c'.blocks.get ⟨k, hk⟩ = if j = k then b2 else c.blocks.get ⟨k, by omega⟩ := by
    intro k hk
    simp only [hc', List.get_eq_getElem]
    rw [List.getElem_set]
  refine ⟨by omega, ?_, ?_, ?_, ?_, ?_⟩
  · intro k hk
    rw [hget k hk]
    by_cases hjk : j = k
    · rw [if_pos hjk, hd, hr, hdt]
      exact ⟨by rw [(hslot j hj).1]; omega, rfl, rfl⟩
    · rw [if_neg hjk]
      exact hslot k (by omega)
  · intro k hk hvk
    rw [hget k hk] at hvk ⊢
    by_cases hjk : j = k
    · rw [if_pos hjk] at hvk ⊢
      rw [hpp]
      exact hvalid j hj (by rw [← hvv]; exact hvk)
    · rw [if_neg hjk] at hvk ⊢
      exact hvalid k (by omega) hvk
  · intro q hq
    obtain ⟨i, hi, hvi, hpi⟩ := hwit q hq
    refine ⟨i, by omega, ?_⟩
    rw [hget i (by omega)]
    by_cases hji : j = i
    · rw [if_pos hji]
      subst hji
      exact ⟨by rw [hvv]; exact hvi, by rw [hpp]; exact hpi⟩
    · rw [if_neg hji]
      exact ⟨hvi, hpi⟩
  · intro k l hk hl hvk hvl hkl
    rw [hget k hk] at hvk hkl
    rw [hget l hl] at hvl hkl
    by_cases hjk : j = k <;> by_cases hjl : j = l
    · omega
    · rw [if_pos hjk] at hvk hkl
      rw [if_neg hjl] at hvl hkl
      subst hjk
      have hvj : (c.blocks.get ⟨j, hj⟩).valid = true := by rw [← hvv]; exact hvk
      have hpj : (c.blocks.get ⟨j, hj⟩).pos = (c.blocks.get ⟨l, by omega⟩).pos := by
        rw [← hpp]; exact hkl
      exact huniq j l hj (by omega) hvj hvl hpj
    · rw [if_neg hjk] at hvk hkl
      rw [if_pos hjl] at hvl hkl
      subst hjl
      have hvj : (c.blocks.get ⟨j, hj⟩).valid = true := by rw [← hvv]; exact hvl
      have hpj : (c.blocks.get ⟨k, by omega⟩).pos = (c.blocks.get ⟨j, hj⟩).pos := by
        rw [← hpp]; exact hkl
      exact huniq k j (by omega) hj hvk hvj hpj
    · rw [if_neg hjk] at hvk hkl
      rw [if_neg hjl] at hvl hkl
      exact huniq k l (by omega) (by omega) hvk hvl hkl
  · rw [hc']
    have hadd := countP_set_add c.blocks (fun b => b.valid) j b2 hj
    simp only [hvv] at hadd
    omega

/-- Filling a previously-invalid slot with a fresh aligned position not
yet in `P` (clean, pin 0, buffer identity kept) extends the workload
invariant to `insert p P`. -/
theorem invGR_set_fill (c : Cache) (P : Finset Nat) (hinv : InvGR c P) (j p : Nat)
    (hj : j < c.blocks.length) (hjinv : (c.blocks.get ⟨j, hj⟩).valid = false)
    (hpnew : p ∉ P) (halign : p % CACHE_BLKSZ = 0) (b2 : CacheBlock)
    (hd : b2.data = (c.blocks.get ⟨j, hj⟩).data) (hr : b2.reference = 0)
    (hdt : b2.dirty = false) (hvv : b2.valid = true) (hpp : b2.pos = p)
    (c' : Cache) (hc' : c'.blocks = c.blocks.set j b2) : InvGR c' (insert p P) := by
  obtain ⟨hlen, hslot, hvalid, hwit, huniq, hcount⟩ := hinv
  have hlen' : c'.blocks.length = c.blocks.length := by rw [hc']; simp
  have hget : ∀ k, ∀ hk : k < c'.blocks.length,
      c'.blocks.get ⟨k, hk⟩ = if j = k then b2 else c.blocks.get ⟨k, by omega⟩ := by
    intro k hk
    simp only [hc', List.get_eq_getElem]
    rw [List.getElem_set]
  refine ⟨by omega, ?_, ?_, ?_, ?_, ?_⟩
  · intro k hk
    rw [hget k hk]
    by_cases hjk : j = k
    · rw [if_pos hjk, hd, hr, hdt]
      exact ⟨by rw [(hslot j hj).1]; omega, rfl, rfl⟩
    · rw [if_neg hjk]
      exact hslot k (by omega)
  · intro k hk hvk
    rw [hget k hk] at hvk ⊢
    by_cases hjk : j = k
    · rw [if_pos hjk] at hvk ⊢
      rw [hpp]
      exact ⟨Finset.mem_insert_self p P, halign⟩
    · rw [if_neg hjk] at hvk ⊢
      obtain ⟨hmem, hal⟩ := hvalid k (by omega) hvk
      exact ⟨Finset.mem_insert_of_mem hmem, hal⟩
  · intro q hq
    rcases Finset.mem_insert.mp hq with rfl | hq'
    · refine ⟨j, by omega, ?_⟩
      rw [hget j (by omega), if_pos rfl]
      exact ⟨hvv, hpp⟩
    · obtain ⟨i, hi, hvi, hpi⟩ := hwit q hq'
      refine ⟨i, by omega, ?_⟩
      rw [hget i (by omega)]
      by_cases hji : j = i
      · exfalso
        subst hji
        rw [hvi] at hjinv
        cases hjinv
      · rw [if_neg hji]
        exact ⟨hvi, hpi⟩
  · intro k l hk hl hvk hvl hkl
    rw [hget k hk] at hvk hkl
    rw [hget l hl] at hvl hkl
    by_cases hjk : j = k <;> by_cases hjl : j = l
    · omega
    · rw [if_pos hjk] at hvk hkl
      rw [if_neg hjl] at hvl hkl
      exfalso
      rw [hpp] at hkl
      exact hpnew ((hkl ▸ hvalid l (by omega) hvl).1)
    · rw [if_neg hjk] at hvk hkl
      rw [if_pos hjl] at hvl hkl
      exfalso
      rw [hpp] at hkl
      exact hpnew ((hkl ▸ hvalid k (by omega) hvk).1)
    · rw [if_neg hjk] at hvk hkl
      rw [if_neg hjl] at hvl hkl
      exact huniq k l (by omega) (by omega) hvk hvl hkl
  · rw [hc']
    have hadd := countP_set_add c.blocks (fun b => b.valid) j b2 hj
    have hcard : (insert p P).card = P.card + 1 := Finset.card_insert_of_not_mem hpnew
    have hjinv' : (c.blocks[j]).valid = false := by
      simpa [List.get_eq_getElem] using hjinv
    simp [hjinv', hvv] at hadd
    simp only [hcard]
    omega

theorem release_findIdx_self (c₁ : Cache) (j : Nat) (hj : j < c₁.blocks.length)
    (hdata : ∀ k, ∀ hk : k < c₁.blocks.length, (c₁.blocks.get ⟨k, hk⟩).data = k)
    (hv : (c₁.blocks.get ⟨j, hj⟩).valid = true) :
    c₁.blocks.findIdx? (fun b => b.valid && b.data == j) = some j := by
  rw [List.findIdx?_eq_some_iff_getElem]
  refine ⟨hj, ?_, ?_⟩
  · have hd := hdata j hj
    simp only [List.get_eq_getElem] at hv hd
    simp [hv, hd]
  · intro k hk
    have hd := hdata k (by omega)
    simp only [List.get_eq_getElem] at hd
    simp [hd]
    intro hvk
    omega

theorem cache_release_core_at (c₁ : Cache) (j : Nat) (hj : j < c₁.blocks.length)
    (hdata : ∀ k, ∀ hk : k < c₁.blocks.length, (c₁.blocks.get ⟨k, hk⟩).data = k)
    (hv : (c₁.blocks.get ⟨j, hj⟩).valid = true)
    (hr : 0 < (c₁.blocks.get ⟨j, hj⟩).reference) :
    (cache_release_core c₁ j false).blocks =
      c₁.blocks.set j
        ({ c₁.blocks.get ⟨j, hj⟩ with
           reference := (c₁.blocks.get ⟨j, hj⟩).reference - 1 }) ∧
    (cache_release_core c₁ j false).use_counter = c₁.use_counter := by
  have hfind := release_findIdx_self c₁ j hj hdata hv
  have hb : c₁.blocks.getD j default = c₁.blocks.get ⟨j, hj⟩ := getD_in_range hj
  have hr' : 0 < (c₁.blocks[j]).reference := by
    simpa [List.get_eq_getElem] using hr
  constructor
  · simp only [cache_release_core, hfind, hb]
    simp [hr']
  · simp only [cache_release_core, hfind, hb]

/-- A get-and-release round at a position already in `P` is a cache hit:
the invariant is preserved with the same `P` and no device operation is
issued. -/
theorem stepGR_hit (sto : Storage) (c : Cache) (P : Finset Nat) (p : Nat)
    (hinv : InvGR c P) (hp : p ∈ P) :
    InvGR (stepGR sto c p).1 P ∧ (stepGR sto c p).2 = [] := by
  obtain ⟨i0, hi0, hvi0, hpi0⟩ := hinv.2.2.2.1 p hp
  cases hfind : findHitIdx c.blocks p with
  | none => exact absurd hpi0 (findHitIdx_none c.blocks p hfind i0 hi0 hvi0)
  | some j =>
    obtain ⟨hj, hjv, hjp⟩ := findHitIdx_some c.blocks p j hfind
    have halign : ¬ p % CACHE_BLKSZ ≠ 0 := by
      have h := (hinv.2.2.1 j hj hjv).2
      rw [hjp] at h
      omega
    have hb : c.blocks.getD j default = c.blocks.get ⟨j, hj⟩ := getD_in_range hj
    have hdj : (c.blocks.get ⟨j, hj⟩).data = j := (hinv.2.1 j hj).1
    have hval : (cache_get_block sto c p).1 = .ok ((c.blocks.get ⟨j, hj⟩).data) := by
      simp only [cache_get_block, if_neg halign, hfind, hb]
    have hblocks : (cache_get_block sto c p).2.1.blocks =
        c.blocks.set j
          ({ c.blocks.get ⟨j, hj⟩ with
             reference := (c.blocks.get ⟨j, hj⟩).reference + 1,
             last_used := c.use_counter + 1 }) := by
      simp only [cache_get_block, if_neg halign, hfind, hb]
    have htr : (cache_get_block sto c p).2.2 = [] := by
      simp only [cache_get_block, if_neg halign, hfind, hb]
    have hstep : stepGR sto c p =
        (cache_release_core (cache_get_block sto c p).2.1 j false,
         (cache_get_block sto c p).2.2) := by
      have hq : cache_get_block sto c p =
          (.ok j, (cache_get_block sto c p).2.1, (cache_get_block sto c p).2.2) :=
        Prod.ext (by rw [hval, hdj]) rfl
      rw [stepGR]
      conv_lhs => rw [hq]
    set c₁ := (cache_get_block sto c p).2.1 with hc₁
    have hlen₁ : c₁.blocks.length = c.blocks.length := by rw [hblocks]; simp
    have hj₁ : j < c₁.blocks.length := by omega
    have hget₁ : ∀ k, ∀ hk : k < c₁.blocks.length,
        c₁.blocks.get ⟨k, hk⟩ =
          if j = k then
            ({ c.blocks.get ⟨j, hj⟩ with
               reference := (c.blocks.get ⟨j, hj⟩).reference + 1,
               last_used := c.use_counter + 1 })
          else c.blocks.get ⟨k, by omega⟩ := by
      intro k hk
      simp only [List.get_eq_getElem, hblocks]
      rw [List.getElem_set]
    have hdata₁ : ∀ k, ∀ hk : k < c₁.blocks.length, (c₁.blocks.get ⟨k, hk⟩).data = k := by
      intro k hk
      rw [hget₁ k hk]
      by_cases hjk : j = k
      · rw [if_pos hjk]
        simp only
        rw [hdj]
        omega
      · rw [if_neg hjk]
        exact (hinv.2.1 k (by omega)).1
    have hv₁ : (c₁.blocks.get ⟨j, hj₁⟩).valid = true := by
      rw [hget₁ j hj₁, if_pos rfl]
      simpa using hjv
    have hr₁ : 0 < (c₁.blocks.get ⟨j, hj₁⟩).reference := by
      rw [hget₁ j hj₁, if_pos rfl]
      simp
    obtain ⟨hrel, -⟩ := cache_release_core_at c₁ j hj₁ hdata₁ hv₁ hr₁
    constructor
    · rw [hstep]
      show InvGR (cache_release_core c₁ j false) P
      refine invGR_set_same c P hinv j hj
        ({ c.blocks.get ⟨j, hj⟩ with
           reference := (c.blocks.get ⟨j, hj⟩).reference + 1 - 1,
           last_used := c.use_counter + 1 })
        rfl ?_ ?_ rfl rfl (cache_release_core c₁ j false) ?_
      · simp only
        have := (hinv.2.1 j hj).2.1
        omega
      · simpa using (hinv.2.1 j hj).2.2
      · have hc1j : c₁.blocks.get ⟨j, hj₁⟩ =
            ({ c.blocks.get ⟨j, hj⟩ with
               reference := (c.blocks.get ⟨j, hj⟩).reference + 1,
               last_used := c.use_counter + 1 }) := by
          rw [hget₁ j hj₁, if_pos rfl]
        rw [hrel, hc1j, hblocks, List.set_set]
    · rw [hstep]
      exact htr

/-- A get-and-release round at a fresh aligned position (with a spare
slot guaranteed by the cardinality bound and an always-successful
backing device) is a miss that issues exactly one fetch and extends the
invariant's position set. -/
theorem stepGR_miss (sto : Storage) (c : Cache) (P : Finset Nat) (p : Nat)
    (hinv : InvGR c P) (hp : p ∉ P) (halignp : p % CACHE_BLKSZ = 0)
    (hfetch : ∀ q, 0 ≤ sto.fetchRes q) (hcard : P.card < CACHE_BLOCK) :
    InvGR (stepGR sto c p).1 (insert p P) ∧ (stepGR sto c p).2 = [DevOp.fetch p] := by
  have halign : ¬ p % CACHE_BLKSZ ≠ 0 := by omega
  have hfind : findHitIdx c.blocks p = none := by
    rw [findHitIdx, List.findIdx?_eq_none_iff]
    intro b hb
    cases hv : b.valid with
    | false => simp [hv]
    | true =>
      obtain ⟨n, rfl⟩ := List.mem_iff_get.mp hb
      have hmem : (c.blocks.get n).pos ∈ P := (hinv.2.2.1 n.1 n.2 hv).1
      have hne : (c.blocks.get n).pos ≠ p := by
        intro hpe
        exact hp (hpe ▸ hmem)
      have hn := n.2
      have hv' : (c.blocks[n.1]).valid = true := by
        simpa [List.get_eq_getElem] using hv
      have hne' : ¬ (c.blocks[n.1]).pos = p := by
        simpa [List.get_eq_getElem] using hne
      simp [hv', hne']
  have hex : ∃ b ∈ c.blocks, b.valid = false := by
    by_contra hall
    push_neg at hall
    have : c.blocks.countP (fun b => b.valid) = c.blocks.length :=
      List.countP_eq_length.mpr fun b hb => by
        cases hbv : b.valid with
        | false => exact absurd hbv (hall b hb)
        | true => simp [hbv]
    have h1 := hinv.2.2.2.2.2
    have h2 := hinv.1
    omega
  have hvic : findVictim c.blocks = some (c.blocks.findIdx fun b => !b.valid) := by
    simpa [findVictim] using victimGo_first_invalid c.blocks 0 none hex
  set j := c.blocks.findIdx (fun b => !b.valid) with hjdef
  have hj : j < c.blocks.length := by
    apply List.findIdx_lt_length_of_exists
    obtain ⟨b, hb, hbv⟩ := hex
    exact ⟨b, hb, by simp [hbv]⟩
  have hjinv : (c.blocks.get ⟨j, hj⟩).valid = false := by
    have := @List.findIdx_getElem _ (fun b => !b.valid) c.blocks hj
    simpa [List.get_eq_getElem] using this
  have hb : c.blocks.getD j default = c.blocks.get ⟨j, hj⟩ := getD_in_range hj
  have hwb : ¬ ((c.blocks.get ⟨j, hj⟩).valid && (c.blocks.get ⟨j, hj⟩).dirty) = true := by
    have hjinv' : (c.blocks[j]).valid = false := by
      simpa [List.get_eq_getElem] using hjinv
    simp [List.get_eq_getElem, hjinv']
  have hft : ¬ sto.fetchRes p < 0 := by
    have := hfetch p
    omega
  have hdj : (c.blocks.get ⟨j, hj⟩).data = j := (hinv.2.1 j hj).1
  have hval : (cache_get_block sto c p).1 = .ok ((c.blocks.get ⟨j, hj⟩).data) := by
    simp only [cache_get_block, if_neg halign, hfind, hvic, hb, if_neg hwb,
      fillSlot, if_neg hft]
  have hblocks : (cache_get_block sto c p).2.1.blocks =
      c.blocks.set j
        ({ pos := p, last_used := c.use_counter + 1,
           reference := (c.blocks.get ⟨j, hj⟩).reference + 1, valid := true,
           dirty := false, data := (c.blocks.get ⟨j, hj⟩).data }) := by
    simp only [cache_get_block, if_neg halign, hfind, hvic, hb, if_neg hwb,
      fillSlot, if_neg hft]
  have htr : (cache_get_block sto c p).2.2 = [DevOp.fetch p] := by
    simp only [cache_get_block, if_neg halign, hfind, hvic, hb, if_neg hwb,
      fillSlot, if_neg hft]
    simp
  have hstep : stepGR sto c p =
      (cache_release_core (cache_get_block sto c p).2.1 j false,
       (cache_get_block sto c p).2.2) := by
    have hq : cache_get_block sto c p =
        (.ok j, (cache_get_block sto c p).2.1, (cache_get_block sto c p).2.2) :=
      Prod.ext (by rw [hval, hdj]) rfl
    rw [stepGR]
    conv_lhs => rw [hq]
  set c₁ := (cache_get_block sto c p).2.1 with hc₁
  have hlen₁ : c₁.blocks.length = c.blocks.length := by rw [hblocks]; simp
  have hj₁ : j < c₁.blocks.length := by omega
  have hget₁ : ∀ k, ∀ hk : k < c₁.blocks.length,
      c₁.blocks.get ⟨k, hk⟩ =
        if j = k then
          ({ pos := p, last_used := c.use_counter + 1,
             reference := (c.blocks.get ⟨j, hj⟩).reference + 1, valid := true,
             dirty := false, data := (c.blocks.get ⟨j, hj⟩).data })
        else c.blocks.get ⟨k, by omega⟩ := by
    intro k hk
    simp only [List.get_eq_getElem, hblocks]
    rw [List.getElem_set]
  have hdata₁ : ∀ k, ∀ hk : k < c₁.blocks.length, (c₁.blocks.get ⟨k, hk⟩).data = k := by
    intro k hk
    rw [hget₁ k hk]
    by_cases hjk : j = k
    · rw [if_pos hjk]
      simp only
      rw [hdj]
      omega
    · rw [if_neg hjk]
      exact (hinv.2.1 k (by omega)).1
  have hv₁ : (c₁.blocks.get ⟨j, hj₁⟩).valid = true := by
    rw [hget₁ j hj₁, if_pos rfl]
  have hr₁ : 0 < (c₁.blocks.get ⟨j, hj₁⟩).reference := by
    rw [hget₁ j hj₁, if_pos rfl]
    simp
  obtain ⟨hrel, -⟩ := cache_release_core_at c₁ j hj₁ hdata₁ hv₁ hr₁
  constructor
  · rw [hstep]
    show InvGR (cache_release_core c₁ j false) (insert p P)
    refine invGR_set_fill c P hinv j p hj hjinv hp halignp
      ({ pos := p, last_used := c.use_counter + 1,
         reference := (c.blocks.get ⟨j, hj⟩).reference + 1 - 1, valid := true,
         dirty := false, data := (c.blocks.get ⟨j, hj⟩).data })
      rfl ?_ rfl rfl rfl (cache_release_core c₁ j false) ?_
    · simp only
      have := (hinv.2.1 j hj).2.1
      omega
    · have hc1j : c₁.blocks.get ⟨j, hj₁⟩ =
          ({ pos := p, last_used := c.use_counter + 1,
             reference := (c.blocks.get ⟨j, hj⟩).reference + 1, valid := true,
             dirty := false, data := (c.blocks.get ⟨j, hj⟩).data }) := by
        rw [hget₁ j hj₁, if_pos rfl]
      rw [hrel, hc1j, hblocks, List.set_set]
  · rw [hstep]
    exact htr

/-! ## Helper lemmas about the close-time ticket sweep -/

theorem closeTickets_length (l : List VioTicket) (i : Nat) :
    (closeTickets l i).1.length = l.length := by
  induction l generalizing i with
  | nil => rfl
  | cons tk rest ih =>
    by_cases hd : tk.done <;> simp [closeTickets, hd, ih]

theorem closeTickets_get (l : List VioTicket) (i j : Nat) (h : j < l.length) :
    (closeTickets l i).1.getD j default =
      (if (l.get ⟨j, h⟩).done then l.get ⟨j, h⟩ else { done := true, status := 1 }) := by
  induction l generalizing i j with
  | nil => simp at h
  | cons tk rest ih =>
    cases j with
    | zero => by_cases hd : tk.done <;> simp [closeTickets, hd]
    | succ j =>
      have h' : j < rest.length := Nat.lt_of_succ_lt_succ h
      have hstep : (closeTickets (tk :: rest) i).1 =
          (if tk.done then tk else { done := true, status := 1 }) :: (closeTickets rest (i + 1)).1 := by
        by_cases hd : tk.done <;> simp [closeTickets, hd]
      rw [hstep, List.getD_cons_succ, List.get_cons_succ]
      exact ih (i + 1) j h'

theorem closeTickets_mem (l : List VioTicket) (i k : Nat) :
    k ∈ (closeTickets l i).2 ↔
      ∃ j, ∃ h : j < l.length, k = i + j ∧ (l.get ⟨j, h⟩).done = false := by
  induction l generalizing i with
  | nil => simp [closeTickets]
  | cons tk rest ih =>
    by_cases hd : tk.done
    · rw [show (closeTickets (tk :: rest) i).2 = (closeTickets rest (i + 1)).2 by
        simp [closeTickets, hd]]
      rw [ih (i + 1)]
      constructor
      · rintro ⟨j, h, hk, hdone⟩
        exact ⟨j + 1, Nat.succ_lt_succ h, by omega, by simpa using hdone⟩
      · rintro ⟨j, h, hk, hdone⟩
        cases j with
        | zero => simp [hd] at hdone
        | succ j =>
          exact ⟨j, Nat.lt_of_succ_lt_succ h, by omega, by simpa using hdone⟩
    · rw [show (closeTickets (tk :: rest) i).2 = i :: (closeTickets rest (i + 1)).2 by
        simp [closeTickets, hd]]
      simp only [List.mem_cons]
      rw [ih (i + 1)]
      constructor
      · rintro (rfl | ⟨j, h, hk, hdone⟩)
        · exact ⟨0, Nat.succ_pos _, by omega, by simpa using hd⟩
        · exact ⟨j + 1, Nat.succ_lt_succ h, by omega, by simpa using hdone⟩
      · rintro ⟨j, h, hk, hdone⟩
        cases j with
        | zero => exact Or.inl (by omega)
        | succ j =>
          exact Or.inr ⟨j, Nat.lt_of_succ_lt_succ h, by omega, by simpa using hdone⟩

/-! ## Claim theorems -/

/-- C7: For every open KTFS file, SET_POS with a value less than or equal
to the cached file size sets the byte cursor to that value and returns 0,
and with a value strictly greater than the size it returns -EINVAL and
leaves the cursor and all other file state unchanged. -/
theorem ktfs_cntl_setpos_spec (f : KtfsFile) (v : Nat) :
    (v ≤ f.size → ktfs_cntl f .setpos (some v) = (0, { f with pos := v }, none)) ∧
    (f.size < v → ktfs_cntl f .setpos (some v) = (-EINVAL, f, none)) := by
  refine ⟨fun h => ?_, fun h => ?_⟩
  · simp [ktfs_cntl, Nat.not_lt.mpr h]
  · simp [ktfs_cntl, h]

/-- Witness for C7 on a 4-byte file: SET_POS 2 succeeds and moves the
cursor; SET_POS 5 fails with -EINVAL and changes nothing. -/
theorem ktfs_cntl_setpos_spec_witness :
    ktfs_cntl { pos := 0, size := 4, inode := { size := 4, block := [5], indirect := 0, dindirect := [0] } }
        .setpos (some 2)
      = (0, { pos := 2, size := 4, inode := { size := 4, block := [5], indirect := 0, dindirect := [0] } }, none) ∧
    ktfs_cntl { pos := 0, size := 4, inode := { size := 4, block := [5], indirect := 0, dindirect := [0] } }
        .setpos (some 5)
      = (-EINVAL, { pos := 0, size := 4, inode := { size := 4, block := [5], indirect := 0, dindirect := [0] } }, none) :=
  ⟨(ktfs_cntl_setpos_spec _ 2).1 (by decide), (ktfs_cntl_setpos_spec _ 5).2 (by decide)⟩

/-- C9: cache_release_block called with a NULL cache, a NULL buffer
pointer, or a pointer that matches no valid slot's buffer returns without
modifying any cache state (slots and use counter unchanged). -/
theorem cache_release_block_frame (c : Cache) (p : Nat) (d : Bool) :
    (∀ pb, cache_release_block none pb d = none) ∧
    cache_release_block (some c) none d = some c ∧
    ((∀ b ∈ c.blocks, b.valid = true → b.data ≠ p) →
      cache_release_block (some c) (some p) d = some c) := by
  refine ⟨fun pb => rfl, rfl, fun h => ?_⟩
  have hfind : c.blocks.findIdx? (fun b => b.valid && b.data == p) = none := by
    rw [List.findIdx?_eq_none_iff]
    intro b hb
    cases hv : b.valid with
    | false => simp [hv]
    | true => simp [hv, h b hb hv]
  simp [cache_release_block, cache_release_core, hfind]

/-- Witness for C9: releasing buffer identity 5 on a one-slot cache whose
only valid slot owns buffer 0 changes nothing. -/
theorem cache_release_block_frame_witness :
    cache_release_block
        (some { blocks := [{ pos := 0, last_used := 1, reference := 1, valid := true, dirty := false, data := 0 }],
                use_counter := 1 })
        (some 5) true
      = some { blocks := [{ pos := 0, last_used := 1, reference := 1, valid := true, dirty := false, data := 0 }],
               use_counter := 1 } :=
  (cache_release_block_frame _ 5 true).2.2 (by decide)

/-- C10: if allocation of the request header or of the status byte fails
inside vioblk_io, the call returns -ENOMEM and the driver state (free
descriptor cursor, descriptor table, available ring and index, tickets)
is exactly as before the call. -/
theorem vioblk_io_nomem_frame (ra sa : Bool) (reqAddr statusAddr bufAddr ty sector len : Nat)
    (st : VioblkState) (hlen : len % 512 = 0) (halloc : ra = false ∨ sa = false) :
    vioblk_io ra sa reqAddr statusAddr bufAddr ty sector len st = (.err (-ENOMEM), st) := by
  rcases halloc with h | h
  · subst h
    simp [vioblk_io, hlen]
  · subst h
    cases ra <;> simp [vioblk_io, hlen]

/-- Witness for C10: a failed status-byte allocation on a concrete
4-entry queue returns -ENOMEM with the state untouched. -/
theorem vioblk_io_nomem_frame_witness :
    vioblk_io true false 100 101 102 VIRTIO_BLK_T_IN 7 512
        { opened := true, qlen := 4, free_desc := 0,
          desc := List.replicate 4 { addr := 0, len := 0, flags := 0, next := 0 },
          availIdx := 0, availRing := [0, 0, 0, 0],
          tickets := List.replicate 4 { done := false, status := 0xFF } }
      = (.err (-ENOMEM),
         { opened := true, qlen := 4, free_desc := 0,
           desc := List.replicate 4 { addr := 0, len := 0, flags := 0, next := 0 },
           availIdx := 0, availRing := [0, 0, 0, 0],
           tickets := List.replicate 4 { done := false, status := 0xFF } }) :=
  vioblk_io_nomem_frame true false 100 101 102 VIRTIO_BLK_T_IN 7 512 _ (by decide) (Or.inr rfl)

/-- C1 (code bug): ktfs_fetch's end-of-file check is
`file->pos >= file->size - file->pos` instead of
`file->pos >= file->size`, so a read at cursor 2040 of a 2560-byte file
(the `indirect` file of the repository's own standalone test, which
expects 16 bytes back at exactly this position) returns 0 even though the
cursor is strictly below the size and the requested length is positive. -/
theorem ktfs_fetch_eof_check_bug :
    ktfs_fetch 4 { entry := fun _ _ => 0, byte := fun _ _ => 0 }
        { pos := 2040, size := 2560,
          inode := { size := 2560, block := [6, 7, 8, 9], indirect := 11, dindirect := [12] } } 16
      = (0, { pos := 2040, size := 2560,
              inode := { size := 2560, block := [6, 7, 8, 9], indirect := 11, dindirect := [12] } }, []) ∧
    2040 < 2560 ∧ (0 : Int) ≠ 16 :=
  ⟨rfl, by decide, by decide⟩

/-- C6 counterexample: the name "/" contains a path separator, yet
KTFS open rejects it with -EINVAL (ktfs_find's empty-after-stripping
check fires before the separator check), not -ENOTSUP as claimed. -/
theorem ktfs_open_name_slash_einval :
    ktfs_open_name (some ['/']) = .err (-EINVAL) ∧ (-EINVAL : Int) ≠ -ENOTSUP :=
  ⟨rfl, by decide⟩

/-- C6 (amended): KTFS open rejects a NULL name, an empty name and the
single-backslash listing name with -ENOTSUP; a nonempty name consisting
entirely of slashes is rejected with -EINVAL; every name that contains a
path separator together with at least one non-slash character is
rejected with -ENOTSUP. -/
theorem ktfs_open_name_reject_spec :
    ktfs_open_name none = .err (-ENOTSUP) ∧
    ktfs_open_name (some []) = .err (-ENOTSUP) ∧
    ktfs_open_name (some ['\\']) = .err (-ENOTSUP) ∧
    (∀ cs : List Char, cs ≠ [] → (∀ c ∈ cs, c = '/') →
      ktfs_open_name (some cs) = .err (-EINVAL)) ∧
    (∀ cs : List Char, '/' ∈ cs → (∃ c ∈ cs, c ≠ '/') →
      ktfs_open_name (some cs) = .err (-ENOTSUP)) := by
  refine ⟨rfl, rfl, rfl, fun cs hne hall => ?_, fun cs hsep hnonsl => ?_⟩
  · have hbs : cs ≠ ['\\'] := by
      intro h
      subst h
      have := hall '\\' (by simp)
      simp at this
    have hdrop : cs.dropWhile (fun c => c = '/') = [] := by
      rw [List.dropWhile_eq_nil_iff]
      intro c hc
      simp [hall c hc]
    simp [ktfs_open_name, hne, hbs, hdrop]
  · have hne : cs ≠ [] := by
      intro h
      subst h
      simp at hsep
    have hbs : cs ≠ ['\\'] := by
      intro h
      subst h
      simp at hsep
    obtain ⟨c, hc, hcne⟩ := hnonsl
    have hdrop : cs.dropWhile (fun c => c = '/') ≠ [] := by
      rw [Ne, List.dropWhile_eq_nil_iff]
      intro hforall
      exact hcne (by simpa using hforall c hc)
    have hcont : cs.contains '/' = true := by
      simpa [List.contains] using hsep
    simp [ktfs_open_name, hne, hbs, hdrop, hcont, hsep]

/-- Witness for C6 (amended): "//" is all slashes and yields -EINVAL;
"a/" contains a separator next to a real character and yields -ENOTSUP. -/
theorem ktfs_open_name_reject_spec_witness :
    ktfs_open_name (some ['/', '/']) = .err (-EINVAL) ∧
    ktfs_open_name (some ['a', '/']) = .err (-ENOTSUP) :=
  ⟨ktfs_open_name_reject_spec.2.2.2.1 ['/', '/'] (by decide) (by decide),
   ktfs_open_name_reject_spec.2.2.2.2 ['a', '/'] (by decide) ⟨'a', by decide, by decide⟩⟩

/-- C8: closing an open VirtIO block device clears the open flag and, for
every ticket still pending at close time, sets status to 1 and done to
true and broadcasts its condition variable, so a submitter waiting on it
resolves its request to -EIO; tickets already completed are left
unchanged (and not broadcast). -/
theorem vioblk_close_forces_pending (st : VioblkState) (hopen : st.opened = true) :
    (vioblk_storage_close st).1.opened = false ∧
    (vioblk_storage_close st).1.tickets.length = st.tickets.length ∧
    ∀ j, ∀ h : j < st.tickets.length,
      ((st.tickets.get ⟨j, h⟩).done = true →
        (vioblk_storage_close st).1.tickets.getD j default = st.tickets.get ⟨j, h⟩ ∧
        j ∉ (vioblk_storage_close st).2) ∧
      ((st.tickets.get ⟨j, h⟩).done = false →
        (vioblk_storage_close st).1.tickets.getD j default = { done := true, status := 1 } ∧
        j ∈ (vioblk_storage_close st).2 ∧
        ∀ len : Nat,
          vioblk_wait_result len ((vioblk_storage_close st).1.tickets.getD j default) = -Eio) := by
  have hcl : vioblk_storage_close st =
      ({ st with opened := false, tickets := (closeTickets st.tickets 0).1 },
       (closeTickets st.tickets 0).2) := by
    simp [vioblk_storage_close, hopen]
  rw [hcl]
  refine ⟨rfl, closeTickets_length _ _, fun j h => ⟨fun hdone => ?_, fun hpend => ?_⟩⟩
  · refine ⟨by rw [closeTickets_get st.tickets 0 j h, hdone, if_pos rfl], fun hmem => ?_⟩
    rw [closeTickets_mem] at hmem
    obtain ⟨j', h', hk, hd'⟩ := hmem
    have : j' = j := by omega
    subst this
    rw [hdone] at hd'
    simp at hd'
  · refine ⟨by rw [closeTickets_get st.tickets 0 j h, hpend]; simp,
      (closeTickets_mem st.tickets 0 j).mpr ⟨j, h, by omega, hpend⟩, fun len => ?_⟩
    rw [closeTickets_get st.tickets 0 j h, hpend]
    simp [vioblk_wait_result]

/-- Witness for C8: closing an open device with one completed ticket
(status 0) and one pending ticket forces exactly the pending one to
status 1 / done, broadcasts index 1 only, and makes its waiter report
-EIO. -/
theorem vioblk_close_forces_pending_witness :
    (vioblk_storage_close
        { opened := true, qlen := 2, free_desc := 0, desc := [], availIdx := 0, availRing := [],
          tickets := [{ done := true, status := 0 }, { done := false, status := 0xFF }] }).1.opened
      = false ∧
    (vioblk_storage_close
        { opened := true, qlen := 2, free_desc := 0, desc := [], availIdx := 0, availRing := [],
          tickets := [{ done := true, status := 0 }, { done := false, status := 0xFF }] }).1.tickets.getD 1 default
      = { done := true, status := 1 } ∧
    vioblk_wait_result 512
        ((vioblk_storage_close
          { opened := true, qlen := 2, free_desc := 0, desc := [], availIdx := 0, availRing := [],
            tickets := [{ done := true, status := 0 }, { done := false, status := 0xFF }] }).1.tickets.getD 1 default)
      = -Eio := by
  refine ⟨(vioblk_close_forces_pending _ rfl).1, ?_, ?_⟩
  · exact (((vioblk_close_forces_pending _ rfl).2.2 1 (by decide)).2 (by decide)).1
  · exact (((vioblk_close_forces_pending _ rfl).2.2 1 (by decide)).2 (by decide)).2.2 512

/-- C2: on a cache_get_block miss, the victim is the first invalid slot
if one exists; otherwise, among the valid slots with pin count 0, a slot
with the smallest last-used stamp; and if every slot is pinned the call
returns -EBUSY with every slot (and the whole cache state) unchanged. -/
theorem cache_get_block_victim_policy (sto : Storage) (c : Cache) (pos : Nat) :
    ((∃ b ∈ c.blocks, b.valid = false) →
      ∃ j, ∃ h : j < c.blocks.length, findVictim c.blocks = some j ∧
        (c.blocks.get ⟨j, h⟩).valid = false ∧
        ∀ k, ∀ hk : k < c.blocks.length, k < j → (c.blocks.get ⟨k, hk⟩).valid = true) ∧
    ((∀ b ∈ c.blocks, b.valid = true) → (∃ b ∈ c.blocks, b.reference = 0) →
      ∃ j, ∃ h : j < c.blocks.length, findVictim c.blocks = some j ∧
        (c.blocks.get ⟨j, h⟩).reference = 0 ∧
        ∀ k, ∀ hk : k < c.blocks.length, (c.blocks.get ⟨k, hk⟩).reference = 0 →
          (c.blocks.get ⟨j, h⟩).last_used ≤ (c.blocks.get ⟨k, hk⟩).last_used) ∧
    (pos % CACHE_BLKSZ = 0 → (∀ b ∈ c.blocks, b.valid = true) →
      (∀ b ∈ c.blocks, b.pos ≠ pos) → (∀ b ∈ c.blocks, 0 < b.reference) →
      cache_get_block sto c pos = (.error (-EBUSY), c, [])) := by
  refine ⟨fun hex => ?_, fun hval href => ?_, fun halign hvalid hmiss hpin => ?_⟩
  · have hfi := victimGo_first_invalid c.blocks 0 none hex
    have hexb : ∃ b ∈ c.blocks, (fun b => !b.valid) b := by
      obtain ⟨b, hb, hv⟩ := hex
      exact ⟨b, hb, by simp [hv]⟩
    have hjlt := List.findIdx_lt_length_of_exists hexb
    refine ⟨c.blocks.findIdx fun b => !b.valid, hjlt, by simpa [findVictim] using hfi, ?_, ?_⟩
    · have hp := @List.findIdx_getElem _ (fun b => !b.valid) c.blocks hjlt
      simpa [List.get_eq_getElem] using hp
    · intro k hk hkj
      have hp := List.not_of_lt_findIdx hkj
      simpa [List.get_eq_getElem] using hp
  · have hav := victimGo_all_valid c.blocks 0 none hval
    have hne := ref0Cands_ne_nil c.blocks 0 href
    obtain ⟨j, lu, hmin, hmem, hall⟩ := minGo_none_spec _ hne
    obtain ⟨k, hk, hj0, hrk, hluk⟩ := (ref0Cands_mem c.blocks 0 j lu).mp hmem
    have hjk : j = k := by omega
    subst hjk
    refine ⟨j, hk, by rw [findVictim, hav]; exact hmin, hrk, ?_⟩
    intro k' hk' hr'
    have hmem' := (ref0Cands_mem c.blocks 0 k' (c.blocks.get ⟨k', hk'⟩).last_used).mpr
      ⟨k', hk', by omega, hr', rfl⟩
    have hle := hall _ hmem'
    rw [← hluk]
    exact hle
  · have hhit : findHitIdx c.blocks pos = none := by
      rw [findHitIdx, List.findIdx?_eq_none_iff]
      intro b hb
      simp [hmiss b hb]
    have hvic : findVictim c.blocks = none := by
      rw [findVictim, victimGo_all_valid c.blocks 0 none hvalid]
      rw [ref0Cands_eq_nil c.blocks 0 fun b hb => Nat.pos_iff_ne_zero.mp (hpin b hb)]
      rfl
    simp [cache_get_block, halign, hhit, hvic]

/-- Witness for C2 on concrete two-slot caches: with slot 1 invalid a
victim exists (and is invalid); with both slots valid and unpinned an
unpinned victim exists; with both slots pinned a missing position
returns -EBUSY with the cache unchanged. -/
theorem cache_get_block_victim_policy_witness :
    (∃ j, ∃ h : j < ([{ pos := 0, last_used := 5, reference := 0, valid := true, dirty := false, data := 0 },
                      { pos := 512, last_used := 0, reference := 3, valid := false, dirty := false, data := 1 }] : List CacheBlock).length,
      findVictim [{ pos := 0, last_used := 5, reference := 0, valid := true, dirty := false, data := 0 },
                  { pos := 512, last_used := 0, reference := 3, valid := false, dirty := false, data := 1 }] = some j ∧
      (([{ pos := 0, last_used := 5, reference := 0, valid := true, dirty := false, data := 0 },
         { pos := 512, last_used := 0, reference := 3, valid := false, dirty := false, data := 1 }] : List CacheBlock).get ⟨j, h⟩).valid = false) ∧
    (∃ j, ∃ h : j < ([{ pos := 0, last_used := 5, reference := 0, valid := true, dirty := false, data := 0 },
                      { pos := 512, last_used := 2, reference := 0, valid := true, dirty := false, data := 1 }] : List CacheBlock).length,
      findVictim [{ pos := 0, last_used := 5, reference := 0, valid := true, dirty := false, data := 0 },
                  { pos := 512, last_used := 2, reference := 0, valid := true, dirty := false, data := 1 }] = some j ∧
      (([{ pos := 0, last_used := 5, reference := 0, valid := true, dirty := false, data := 0 },
         { pos := 512, last_used := 2, reference := 0, valid := true, dirty := false, data := 1 }] : List CacheBlock).get ⟨j, h⟩).reference = 0) ∧
    cache_get_block { fetchRes := fun _ => 512, storeRes := fun _ => 512 }
        { blocks := [{ pos := 0, last_used := 5, reference := 1, valid := true, dirty := false, data := 0 },
                     { pos := 512, last_used := 2, reference := 2, valid := true, dirty := false, data := 1 }],
          use_counter := 5 } 1024
      = (.error (-EBUSY),
         { blocks := [{ pos := 0, last_used := 5, reference := 1, valid := true, dirty := false, data := 0 },
                      { pos := 512, last_used := 2, reference := 2, valid := true, dirty := false, data := 1 }],
           use_counter := 5 }, []) := by
  refine ⟨?_, ?_, ?_⟩
  · obtain ⟨j, h, hv, hinv, -⟩ :=
      (cache_get_block_victim_policy { fetchRes := fun _ => 512, storeRes := fun _ => 512 }
        { blocks := [{ pos := 0, last_used := 5, reference := 0, valid := true, dirty := false, data := 0 },
                     { pos := 512, last_used := 0, reference := 3, valid := false, dirty := false, data := 1 }],
          use_counter := 5 } 0).1
      (by decide)
    exact ⟨j, h, hv, hinv⟩
  · obtain ⟨j, h, hv, hr, -⟩ :=
      (cache_get_block_victim_policy { fetchRes := fun _ => 512, storeRes := fun _ => 512 }
        { blocks := [{ pos := 0, last_used := 5, reference := 0, valid := true, dirty := false, data := 0 },
                     { pos := 512, last_used := 2, reference := 0, valid := true, dirty := false, data := 1 }],
          use_counter := 5 } 0).2.1
      (by decide) (by decide)
    exact ⟨j, h, hv, hr⟩
  · exact (cache_get_block_victim_policy _ _ 1024).2.2 (by decide) (by decide) (by decide) (by decide)

/-- C3: cache_flush walks the slots in order; a valid dirty pinned slot
is skipped unchanged (so it keeps its dirty flag) and not written; a
valid dirty unpinned slot is written back and its dirty flag cleared on
success; the walk stops at the first failing write-back, leaving every
later slot unchanged; the write-backs issued are exactly the flushable
slots' positions up to and including the first failing one; and the
return value is the first failing store's status, else -EBUSY if some
pinned dirty slot was skipped, else 0. -/
theorem cache_flush_characterization (sto : Storage) (c : Cache) :
    (cache_flush sto c).1 = flushSpecResult sto c.blocks ∧
    (cache_flush sto c).2.1.use_counter = c.use_counter ∧
    (cache_flush sto c).2.1.blocks.length = c.blocks.length ∧
    (∀ j, (cache_flush sto c).2.1.blocks.getD j default =
      (if j < flushFailIdx sto c.blocks ∧ isFlushable (c.blocks.getD j default) = true then
        { c.blocks.getD j default with dirty := false }
      else c.blocks.getD j default)) ∧
    (cache_flush sto c).2.2 = flushSpecStores sto c.blocks := by
  obtain ⟨h1, h2, h3, h4⟩ := flushGo_spec sto c.blocks 0
  exact ⟨by simpa [cache_flush, flushSpecResult] using h1, rfl,
    by simpa [cache_flush] using h2, fun j => by simpa [cache_flush] using h3 j,
    by simpa [cache_flush] using h4⟩

/-- C5: ktfs_map resolves a logical block index i by the direct entries
first (-ENOENT on a zero entry), then the single-indirect block for the
next ENTRIES_PER_BLOCK indices (-ENOENT on a zero indirect pointer or a
zero read entry), then the double-indirect slots, each spanning
ENTRIES_PER_BLOCK² indices, reading a second-level block number and then
a data block number (-ENOENT on any zero pointer), and returns -EINVAL
once i exceeds all mappings.  `D` is KTFS_NUM_DIRECT_DATA_BLOCKS and the
double-indirect slot count is the length of inode.dindirect. -/
theorem ktfs_map_resolution (D : Nat) (disk : KtfsDisk) (ino : KtfsInode) (i : Nat) :
    (i < D →
      ktfs_map D disk ino i =
        if ino.block.getD i 0 = 0 then .error (-ENOENT) else .ok (ino.block.getD i 0)) ∧
    (D ≤ i → i - D < ENTRIES_PER_BLOCK →
      ktfs_map D disk ino i =
        if ino.indirect = 0 then .error (-ENOENT)
        else if disk.entry ino.indirect (i - D) = 0 then .error (-ENOENT)
        else .ok (disk.entry ino.indirect (i - D))) ∧
    (D + ENTRIES_PER_BLOCK ≤ i →
      (i - D - ENTRIES_PER_BLOCK) / (ENTRIES_PER_BLOCK * ENTRIES_PER_BLOCK) <
        ino.dindirect.length →
      ktfs_map D disk ino i =
        dindSlotResolve disk
          (ino.dindirect.getD
            ((i - D - ENTRIES_PER_BLOCK) / (ENTRIES_PER_BLOCK * ENTRIES_PER_BLOCK)) 0)
          ((i - D - ENTRIES_PER_BLOCK) % (ENTRIES_PER_BLOCK * ENTRIES_PER_BLOCK))) ∧
    (D + ENTRIES_PER_BLOCK + ino.dindirect.length * (ENTRIES_PER_BLOCK * ENTRIES_PER_BLOCK) ≤ i →
      ktfs_map D disk ino i = .error (-EINVAL)) := by
  refine ⟨fun hdir => ?_, fun hge hind => ?_, fun hge hq => ?_, fun hge => ?_⟩
  · simp [ktfs_map, hdir]
  · have hnd : ¬ i < D := Nat.not_lt.mpr hge
    by_cases h0 : ino.indirect = 0
    · simp [ktfs_map, hnd, hind, h0]
    · by_cases he : disk.entry ino.indirect (i - D) = 0 <;>
        simp [ktfs_map, hnd, hind, h0, ktfs_read_block_entry, Nat.not_le.mpr hind, he]
  · have hnd : ¬ i < D := by
      have := ENTRIES_PER_BLOCK
      omega
    have hni : ¬ i - D < ENTRIES_PER_BLOCK := by omega
    rw [show ktfs_map D disk ino i =
        ktfs_map_dind disk (i - D - ENTRIES_PER_BLOCK) ino.dindirect from by
      simp [ktfs_map, hnd, hni]]
    rw [ktfs_map_dind_spec disk ino.dindirect (i - D - ENTRIES_PER_BLOCK), if_pos hq]
  · have hnd : ¬ i < D := by
      have := ENTRIES_PER_BLOCK
      omega
    have hni : ¬ i - D < ENTRIES_PER_BLOCK := by omega
    rw [show ktfs_map D disk ino i =
        ktfs_map_dind disk (i - D - ENTRIES_PER_BLOCK) ino.dindirect from by
      simp [ktfs_map, hnd, hni]]
    rw [ktfs_map_dind_spec disk ino.dindirect (i - D - ENTRIES_PER_BLOCK)]
    rw [if_neg (Nat.not_lt.mpr ((Nat.le_div_iff_mul_le (by decide)).mpr (by omega)))]

/-- Witness for C5 on the standalone test's image (4 direct entries
6,7,8,9; indirect block 11 whose entry is data block 10; one
double-indirect slot 12 whose first second-level block is 13, pointing at
data block 14): index 2 resolves to 8, index 4 to 10, index 132 (the
first double-indirect index) to 14, and index 4+128+16384 is out of
range. -/
theorem ktfs_map_resolution_witness :
    ktfs_map 4 { entry := fun b _ => if b = 11 then 10 else if b = 12 then 13 else if b = 13 then 14 else 0,
                 byte := fun _ _ => 0 }
        { size := 2560, block := [6, 7, 8, 9], indirect := 11, dindirect := [12] } 2 = .ok 8 ∧
    ktfs_map 4 { entry := fun b _ => if b = 11 then 10 else if b = 12 then 13 else if b = 13 then 14 else 0,
                 byte := fun _ _ => 0 }
        { size := 2560, block := [6, 7, 8, 9], indirect := 11, dindirect := [12] } 4 = .ok 10 ∧
    ktfs_map 4 { entry := fun b _ => if b = 11 then 10 else if b = 12 then 13 else if b = 13 then 14 else 0,
                 byte := fun _ _ => 0 }
        { size := 2560, block := [6, 7, 8, 9], indirect := 11, dindirect := [12] } 132 = .ok 14 ∧
    ktfs_map 4 { entry := fun b _ => if b = 11 then 10 else if b = 12 then 13 else if b = 13 then 14 else 0,
                 byte := fun _ _ => 0 }
        { size := 2560, block := [6, 7, 8, 9], indirect := 11, dindirect := [12] } 16516
      = .error (-EINVAL) := by
  refine ⟨?_, ?_, ?_, ?_⟩
  · rw [(ktfs_map_resolution 4 _ _ 2).1 (by decide)]
    rfl
  · rw [(ktfs_map_resolution 4 _ _ 4).2.1 (by decide) (by decide)]
    rfl
  · rw [(ktfs_map_resolution 4 _ _ 132).2.2.1 (by decide) (by decide)]
    rfl
  · exact (ktfs_map_resolution 4 _ _ 16516).2.2.2 (by decide)

theorem countFetches_append (a b : List DevOp) :
    countFetches (a ++ b) = countFetches a + countFetches b := by
  simp [countFetches]

theorem runGR_cons_fst (sto : Storage) (c : Cache) (p : Nat) (ps : List Nat) :
    (runGR sto c (p :: ps)).1 = (runGR sto (stepGR sto c p).1 ps).1 := rfl

theorem runGR_cons_snd (sto : Storage) (c : Cache) (p : Nat) (ps : List Nat) :
    (runGR sto c (p :: ps)).2 =
      (stepGR sto c p).2 ++ (runGR sto (stepGR sto c p).1 ps).2 := rfl

/-- The freshly created cache is structurally well formed. -/
theorem goodCache_initCache : GoodCache initCache := by
  constructor
  · intro i h
    simp [initCache, List.get_eq_getElem]
  · intro i j hi hj hvi
    exfalso
    simp [initCache, List.get_eq_getElem] at hvi

/-- The freshly created cache satisfies the workload invariant with the
empty position set. -/
theorem invGR_initCache : InvGR initCache ∅ := by
  refine ⟨by simp [initCache], ?_, ?_, ?_, ?_, ?_⟩
  · intro i h
    simp [initCache, List.get_eq_getElem]
  · intro i h hv
    exfalso
    simp [initCache, List.get_eq_getElem] at hv
  · intro q hq
    exact absurd hq (Finset.not_mem_empty q)
  · intro i j hi hj hvi
    exfalso
    simp [initCache, List.get_eq_getElem] at hvi
  · decide

/-- Running the get-and-release workload from any invariant state extends
the position set by the positions touched and issues exactly one fetch
per genuinely new position. -/
theorem invGR_runGR (sto : Storage) (hfetch : ∀ q, 0 ≤ sto.fetchRes q) :
    ∀ (l : List Nat) (c : Cache) (P : Finset Nat), InvGR c P →
      (∀ q ∈ l, q % CACHE_BLKSZ = 0) → (P ∪ l.toFinset).card ≤ CACHE_BLOCK →
      InvGR (runGR sto c l).1 (P ∪ l.toFinset) ∧
      countFetches (runGR sto c l).2 = (P ∪ l.toFinset).card - P.card := by
  intro l
  induction l with
  | nil =>
    intro c P hinv _ _
    refine ⟨?_, ?_⟩
    · show InvGR c (P ∪ ([] : List Nat).toFinset)
      simpa using hinv
    · show countFetches [] = (P ∪ ([] : List Nat).toFinset).card - P.card
      simp [countFetches]
  | cons p ps ih =>
    intro c P hinv halign hcard
    by_cases hp : p ∈ P
    · have hset : P ∪ (p :: ps).toFinset = P ∪ ps.toFinset := by
        rw [List.toFinset_cons, Finset.union_insert,
          Finset.insert_eq_self.mpr (Finset.mem_union_left _ hp)]
      rw [hset] at hcard ⊢
      obtain ⟨hinv', htr⟩ := stepGR_hit sto c P p hinv hp
      obtain ⟨hinv'', hcount⟩ := ih (stepGR sto c p).1 P hinv'
        (fun q hq => halign q (List.mem_cons_of_mem p hq)) hcard
      refine ⟨?_, ?_⟩
      · rw [runGR_cons_fst]
        exact hinv''
      · rw [runGR_cons_snd, countFetches_append, htr]
        simpa [countFetches] using hcount
    · have hsub : insert p P ⊆ P ∪ (p :: ps).toFinset := by
        intro x hx
        rcases Finset.mem_insert.mp hx with rfl | hx
        · exact Finset.mem_union_right _ (by simp)
        · exact Finset.mem_union_left _ hx
      have hci : (insert p P).card = P.card + 1 := Finset.card_insert_of_not_mem hp
      have hle : (insert p P).card ≤ (P ∪ (p :: ps).toFinset).card :=
        Finset.card_le_card hsub
      have hcardlt : P.card < CACHE_BLOCK := by omega
      obtain ⟨hinv', htr⟩ := stepGR_miss sto c P p hinv hp
        (halign p (List.mem_cons_self p ps)) hfetch hcardlt
      have hset : insert p P ∪ ps.toFinset = P ∪ (p :: ps).toFinset := by
        rw [List.toFinset_cons, Finset.insert_union, Finset.union_insert]
      obtain ⟨hinv'', hcount⟩ := ih (stepGR sto c p).1 (insert p P) hinv'
        (fun q hq => halign q (List.mem_cons_of_mem p hq)) (by rw [hset]; exact hcard)
      rw [hset] at hinv'' hcount
      refine ⟨?_, ?_⟩
      · rw [runGR_cons_fst]
        exact hinv''
      · rw [runGR_cons_snd, countFetches_append, htr,
          show countFetches [DevOp.fetch p] = 1 from rfl]
        omega

/-- C4: a repeated cache_get_block at the same aligned position, with any
gets and releases in between that leave the slot valid at that position
(no eviction), returns the very same buffer identity and issues no
backing-device operation; and over any get-and-release workload on the
fresh cache touching at most 64 distinct aligned positions (with
successful fetches), the total number of backing-device fetches equals
the number of distinct positions accessed. -/
theorem cache_get_block_hit_identity_fetch_count (sto : Storage) :
    (∀ (c : Cache) (p v : Nat) (c₁ : Cache) (tr : List DevOp), GoodCache c →
      cache_get_block sto c p = (.ok v, c₁, tr) → ∀ ops : List CacheOp,
      (∃ h : v < (runOps sto c₁ ops).blocks.length,
        ((runOps sto c₁ ops).blocks.get ⟨v, h⟩).valid = true ∧
        ((runOps sto c₁ ops).blocks.get ⟨v, h⟩).pos = p) →
      ∃ c₃, cache_get_block sto (runOps sto c₁ ops) p = (.ok v, c₃, [])) ∧
    (∀ l : List Nat, (∀ q ∈ l, q % CACHE_BLKSZ = 0) →
      (∀ q, 0 ≤ sto.fetchRes q) → l.toFinset.card ≤ CACHE_BLOCK →
      countFetches (runGR sto initCache l).2 = l.toFinset.card) := by
  constructor
  · intro c p v c₁ tr hg hget ops hv2
    exact cache_hit_identity sto c p v c₁ tr hg hget ops hv2
  · intro l halign hfetch hcard
    have h := (invGR_runGR sto hfetch l initCache ∅ invGR_initCache halign
      (by simpa using hcard)).2
    simpa using h

/-- Witness for C4: after the first get of position 0 on the fresh cache,
an immediate repeat get returns the same buffer identity 0 with an empty
device trace; and the workload get-release 0, 512, 0 issues exactly 2
fetches — one per distinct position. -/
theorem cache_get_block_hit_identity_fetch_count_witness :
    (∃ c₃, cache_get_block { fetchRes := fun _ => 0, storeRes := fun _ => 0 }
        (runOps { fetchRes := fun _ => 0, storeRes := fun _ => 0 }
          (cache_get_block { fetchRes := fun _ => 0, storeRes := fun _ => 0 }
            initCache 0).2.1 []) 0
      = (.ok 0, c₃, [])) ∧
    countFetches (runGR { fetchRes := fun _ => 0, storeRes := fun _ => 0 }
      initCache [0, 512, 0]).2 = 2 := by
  constructor
  · exact (cache_get_block_hit_identity_fetch_count
      { fetchRes := fun _ => 0, storeRes := fun _ => 0 }).1 initCache 0 0 _ _
      goodCache_initCache rfl [] ⟨by decide, by decide, by decide⟩
  · have h := (cache_get_block_hit_identity_fetch_count
      { fetchRes := fun _ => 0, storeRes := fun _ => 0 }).2 [0, 512, 0]
      (by decide) (fun _ => Int.le_refl 0) (by decide)
    rw [h]
    decide

end ECE391
